import Mathlib

/-!
# Game of Life on a sparse lattice: the simulation core of `main.go`

A shallow embedding of the tile model, the neighbour enumeration `around`, the
pixel-to-grid mapping `round`, the generation function `step` and the driver's
left-click placement, followed by the properties proved about them.

Modelling conventions.

* A finite `float64` is the rational number it denotes (`ℚ`; `+0` and `-0` are both
  `0`, as they are equal as map keys and in comparisons).  The arithmetic the program
  does on them, `x - y`, `x * y` and `x / y`, rounds the exact result to the nearest
  float64, ties to even (`toFloat64`, `fsub`, `fmul`, `fdiv`); `math.Floor` and the
  comparisons are exact.  NaN and the infinities are not values of the model; on
  finite arguments no operation of the program yields one.
* The Go `int` counter `n` is an `Int` and `n++` wraps at 64 bits (`wrapInt`).
* `*Tile` values held in `map[key]*Tile` are owned by the table alone once the
  tile has been popped, so the table maps keys to tile values and a mutation
  through the pointer is a store at the key.
* `cells` (a `set.Interface` of `*Tile`, keyed by pointer) is, for `step`, the
  list of tiles in the order `Pop` hands them out; each list element is a
  distinct tile object, so equal elements are distinct objects with equal
  contents.  The channel returned by `around` is the list of tiles sent on it.
* For the driver, the heap is the list of tile objects ever allocated, a pointer is
  an index into it, and `cells` is the list of pointers the set holds; `Has` and
  `Add` of the set library compare pointers.
* A Go `map` has no iteration order; the table is an association list with
  unique keys and `range` visits it in list order.  Results are compared as sets
  of coordinates.
-/

namespace GameOfLife

/-! ## Constants and data -/

/-- Edge length of a cell, `size float64 = 16`. -/
def size : ℚ := 16

/-- Window width, `maxX float64 = 1024`. -/
def maxX : ℚ := 1024

/-- Window height, `maxY float64 = 768`. -/
def maxY : ℚ := 768

/-- One of the eight compass directions. -/
structure delta where
  dx : ℚ
  dy : ℚ
deriving DecidableEq

/-- The eight directions, in the order of the source. -/
def transformations : List delta :=
  [⟨0, 1⟩, ⟨0, -1⟩, ⟨1, 0⟩, ⟨-1, 0⟩, ⟨1, 1⟩, ⟨-1, -1⟩, ⟨-1, 1⟩, ⟨1, -1⟩]

/-- Tile is a position on the map. -/
structure Tile where
  x : ℚ
  y : ℚ
  n : Int
  alive : Bool
deriving DecidableEq

/-- A fresh tile: counter 0, not alive. -/
def createTile (x : ℚ) (y : ℚ) : Tile :=
  { x := x, y := y, n := 0, alive := false }

/-- The bounds predicate of the source, with its disjunctions as written. -/
def insideWindow (x : ℚ) (y : ℚ) : Bool :=
  ((decide (0 ≤ x) || decide (x < maxX)) || (decide (0 ≤ y) || decide (y < maxY)))

/-! ## float64 arithmetic -/

/-- Round to the nearest integer, ties to the even one. -/
def roundHalfEven (r : ℚ) : Int :=
  let f := Int.floor r
  let d := r - (f : ℚ)
  if d < 1 / 2 then f
  else if 1 / 2 < d then f + 1
  else if f % 2 = 0 then f else f + 1

/-- Position of the highest set bit of `n`, by repeated halving; the first argument bounds
the number of halvings. -/
def log2Fuel : Nat → Nat → Nat
  | 0, _ => 0
  | fuel + 1, n => if n < 2 then 0 else log2Fuel fuel (n / 2) + 1

/-- Position of the highest set bit of `n < 2^(2^b)`, by bisection: `b` halvings of the
bit range. -/
def log2Bits : Nat → Nat → Nat
  | 0, _ => 0
  | b + 1, n => if 2 ^ 2 ^ b ≤ n then 2 ^ b + log2Bits b (n / 2 ^ 2 ^ b) else log2Bits b n

/-- Position of the highest set bit of `n` (0 for `n = 0`): by bisection below `2^4096`,
by halving above. -/
def bitLog (n : Nat) : Nat := if n < 2 ^ 2 ^ 12 then log2Bits 12 n else log2Fuel n n

/-- With `q` written in units of `2^-1074` (the least positive float64), the number of low
bits of the integer part that do not fit a 53-bit significand: 0 up to the first normal
binade, and one more per binade above it. The spacing of float64 values around `q` is
`2^(f64Shift q) * 2^-1074`. -/
def f64Shift (q : ℚ) : Nat :=
  bitLog (Int.natAbs (Int.floor |q * ((2 ^ 1074 : Int) : ℚ)|)) - 52

/-- The float64 value nearest to the real number `q`, ties to the even significand
(IEEE 754 round-to-nearest-even, subnormals included). Overflow to an infinity is not
modelled: no operation of the program overflows on finite arguments. -/
def toFloat64 (q : ℚ) : ℚ :=
  (roundHalfEven (q * ((2 ^ 1074 : Int) : ℚ) / ((2 ^ f64Shift q : Int) : ℚ)) : ℚ)
    * ((2 ^ f64Shift q : Int) : ℚ) / ((2 ^ 1074 : Int) : ℚ)

/-- Subtraction `x - y` of float64. -/
def fsub (x y : ℚ) : ℚ := toFloat64 (x - y)

/-- Multiplication `x * y` of float64. -/
def fmul (x y : ℚ) : ℚ := toFloat64 (x * y)

/-- Division `x / y` of float64. -/
def fdiv (x y : ℚ) : ℚ := toFloat64 (x / y)

/-- The tiles sent on the channel of `around`, in sending order. -/
def Tile.around (t : Tile) : List Tile :=
  transformations.filterMap fun d =>
    let nx := fsub t.x (fmul d.dx size)
    let ny := fsub t.y (fmul d.dy size)
    if insideWindow nx ny then some (createTile nx ny) else none

/-- Grid anchor of a pixel position: `math.Floor(i/size) * size`. -/
def round (i : ℚ) : ℚ := fmul ((Int.floor (fdiv i size) : Int) : ℚ) size

/-- Key of the table of `step`. -/
structure key where
  x : ℚ
  y : ℚ
deriving DecidableEq

/-- Coordinate of a tile, as the key `step` files it under. -/
def Tile.key (t : Tile) : key := ⟨t.x, t.y⟩

/-- Two's-complement wrap of a 64-bit Go `int`. -/
def wrapInt (i : Int) : Int := (i + 2 ^ 63) % 2 ^ 64 - 2 ^ 63

/-! ## The table of `step` -/

/-- The table `map[key]*Tile`, as an association list. -/
abbrev TileMap := List (key × Tile)

/-- Map read `tileMap[k]`. -/
def mapGet : TileMap → key → Option Tile
  | [], _ => none
  | (k', v) :: rest, k => if k' = k then some v else mapGet rest k

/-- Map write `tileMap[k] = v` (also a mutation through the stored pointer). -/
def mapSet : TileMap → key → Tile → TileMap
  | [], k, v => [(k, v)]
  | (k', v') :: rest, k, v =>
    if k' = k then (k, v) :: rest else (k', v') :: mapSet rest k v

/-- Body of the inner loop of `step`: one tile received from `around`. -/
def countNeighbour (tileMap : TileMap) (t : Tile) : TileMap :=
  let k := t.key
  match mapGet tileMap k with
  | some _tile => mapSet tileMap k { _tile with n := wrapInt (_tile.n + 1) }
  | none => mapSet tileMap k { t with n := wrapInt (t.n + 1) }

/-- Body of the outer loop of `step`: one popped tile. -/
def popTile (tileMap : TileMap) (tile : Tile) : TileMap :=
  let k := tile.key
  let marked :=
    match mapGet tileMap k with
    | some t => mapSet tileMap k { t with alive := true }
    | none => mapSet tileMap k { tile with alive := true }
  tile.around.foldl countNeighbour marked

/-- The table after the crowding loop has emptied `cells`. -/
def crowding (cells : List Tile) : TileMap := cells.foldl popTile []

/-- The survivor rule applied to one table entry. -/
def survives (v : Tile) : Option Tile :=
  if 2 ≤ v.n ∧ v.n < 4 ∧ v.alive = true then some { v with n := 0 }
  else if v.n = 3 ∧ v.alive = false then some { v with n := 0 }
  else none

/-- The second loop of `step`: the tiles added back to the emptied `cells`. -/
def survivors (tileMap : TileMap) : List Tile :=
  tileMap.filterMap fun kv => survives kv.2

/-- One generation: `cells` after `step(cells)`, given the pop order. -/
def step (cells : List Tile) : List Tile := survivors (crowding cells)

/-- Coordinates held by a live set. -/
def coords (cells : List Tile) : List key := cells.map Tile.key


/-! ## The driver: placing a cell on a left click -/

/-- Program state of the driver: the tile objects allocated so far (a pointer is an
index into `heap`) and the pointers held by the set `cells`. -/
structure World where
  heap : List Tile
  cells : List Nat

/-- The state at start-up: `cells := set.New(set.NonThreadSafe)`. -/
def World.init : World := { heap := [], cells := [] }

/-- Membership test `cells.Has(tile)` of the set library: by pointer. -/
def setHas (cells : List Nat) (p : Nat) : Bool := decide (p ∈ cells)

/-- Insertion `cells.Add(tile)` of the set library: by pointer. -/
def setAdd (cells : List Nat) (p : Nat) : List Nat :=
  if p ∈ cells then cells else cells ++ [p]

/-- The left-click branch of `run` at mouse position `(posX, posY)`. -/
def click (w : World) (posX : ℚ) (posY : ℚ) : World :=
  let x := round posX
  let y := round posY
  let tile : Tile := { createTile x y with alive := true }
  let p := w.heap.length
  let heap := w.heap ++ [tile]
  if !setHas w.cells p then { heap := heap, cells := setAdd w.cells p }
  else { heap := heap, cells := w.cells }

/-- The tiles the set holds, as `cells.List()` returns them. -/
def liveTiles (w : World) : List Tile :=
  w.cells.filterMap fun p => w.heap.get? p

/-! ## Auxiliary definitions for the proofs -/

/-- Keys of the table. -/
def keys (m : TileMap) : List key := m.map Prod.fst

/-- Effect of `t.alive = true` / `tileMap[k] = tile` on the entry of a key. -/
def markAlive (o : Option Tile) (tile : Tile) : Tile :=
  match o with
  | some t => { t with alive := true }
  | none => { tile with alive := true }

/-- Effect of `_tile.n++` / `t.n++; tileMap[k] = t` on the entry of a key. -/
def bump (o : Option Tile) (t : Tile) : Tile :=
  match o with
  | some v => { v with n := wrapInt (v.n + 1) }
  | none => { t with n := wrapInt (t.n + 1) }

/-- Effect of one popped tile on the entry of key `k`. -/
def entryStep (k : key) (o : Option Tile) (tile : Tile) : Option Tile :=
  let base := if tile.key = k then some (markAlive o tile) else o
  if k ∈ coords tile.around then some (bump base (createTile k.x k.y)) else base

/-- The counter after `h` increments starting from `n`. -/
def incBy : Nat → Int → Int
  | 0, n => n
  | h + 1, n => wrapInt (incBy h n + 1)

/-- Number of popped tiles whose `around` sends a tile at `k`. -/
def hits (cells : List Tile) (k : key) : Nat :=
  cells.countP fun t => decide (k ∈ coords t.around)

/-- State of the entry of `k`: absent while `k` is neither live nor hit; otherwise a
tile at `k` whose flag says whether `k` is live and whose counter has been incremented
once per hit. -/
def EntryOk (k : key) (o : Option Tile) (live : Prop) (h : Nat) : Prop :=
  match o with
  | none => ¬ live ∧ h = 0
  | some v => v.x = k.x ∧ v.y = k.y ∧ (v.alive = true ↔ live) ∧ v.n = incBy h 0 ∧ (live ∨ 0 < h)

/-- The 8-cell Moore neighbourhood of a coordinate: the cells at `(x + dx*size, y + dy*size)`
for the pairs `(dx, dy)` of `{-1,0,1} × {-1,0,1}` other than `(0,0)`. -/
def moore (c : key) : List key :=
  [((-1 : Int), (-1 : Int)), (-1, 0), (-1, 1), (0, -1), (0, 1), (1, -1), (1, 0), (1, 1)].map
    fun d => ⟨c.x + (d.1 : ℚ) * size, c.y + (d.2 : ℚ) * size⟩

/-- Number of members of the live set in the Moore neighbourhood of `c`. -/
def liveNeighbours (cells : List Tile) (c : key) : Nat :=
  cells.countP fun t => decide (t.key ∈ moore c)

/-! ## The loops of `step` with an iteration budget -/

/-- The crowding loop `for cells.Size() > 0 { e := cells.Pop(); ... }` run for at most
`fuel` iterations on the state `(cells, tileMap)`: `none` when the budget is used up
while `cells` is not yet empty. -/
def crowdingLoop : Nat → List Tile → TileMap → Option TileMap
  | _, [], tileMap => some tileMap
  | 0, _ :: _, _ => none
  | fuel + 1, tile :: cells, tileMap => crowdingLoop fuel cells (popTile tileMap tile)

/-- The function `step` with the crowding loop under a budget. -/
def stepLoop (fuel : Nat) (cells : List Tile) : Option (List Tile) :=
  (crowdingLoop fuel cells []).map survivors

/-! ## Alignment and translation -/

/-- Both coordinates of the tile are integer multiples of `size`. -/
def Tile.aligned (t : Tile) : Prop :=
  (∃ a : Int, t.x = (a : ℚ) * size) ∧ (∃ b : Int, t.y = (b : ℚ) * size)

/-- Both coordinates of the tile are integer multiples of `size` of magnitude below
`2^53 * size = 2^57`, the range in which float64 holds every multiple of `size` and
its neighbours exactly. -/
def Tile.inRange (t : Tile) : Prop :=
  (∃ a : Int, |a| < 2 ^ 53 ∧ t.x = (a : ℚ) * size) ∧
    (∃ b : Int, |b| < 2 ^ 53 ∧ t.y = (b : ℚ) * size)

/-- The coordinate moved by `(a*size, b*size)`. -/
def shiftKey (a b : Int) (k : key) : key :=
  ⟨k.x + (a : ℚ) * size, k.y + (b : ℚ) * size⟩

/-- The tile moved by `(a*size, b*size)`, counter and flag unchanged. -/
def shiftTile (a b : Int) (t : Tile) : Tile :=
  { t with x := t.x + (a : ℚ) * size, y := t.y + (b : ℚ) * size }

/-! ## Facts about float64 rounding -/

theorem log2Fuel_eq (fuel n : Nat) (h : n ≤ fuel) : log2Fuel fuel n = Nat.log2 n := by
  induction fuel generalizing n with
  | zero =>
    have : n = 0 := by omega
    subst this
    rw [Nat.log2]
    simp [log2Fuel]
  | succ fuel ih =>
    rw [log2Fuel, Nat.log2]
    by_cases h2 : n < 2
    · have : ¬ n ≥ 2 := by omega
      simp [h2, this]
    · have h3 : n ≥ 2 := by omega
      simp only [h2, h3, if_true, if_false]
      rw [ih (n / 2) (by omega)]

theorem roundHalfEven_intCast (k : Int) : roundHalfEven (k : ℚ) = k := by
  simp [roundHalfEven]

theorem toFloat64_of_int (q : ℚ) (k : Int)
    (h : q * ((2 ^ 1074 : Int) : ℚ) / ((2 ^ f64Shift q : Int) : ℚ) = (k : ℚ)) :
    toFloat64 q = q := by
  unfold toFloat64
  rw [h, roundHalfEven_intCast, ← h]
  have h1 : ((2 ^ 1074 : Int) : ℚ) ≠ 0 := by positivity
  have h2 : ((2 ^ f64Shift q : Int) : ℚ) ≠ 0 := by positivity
  field_simp

theorem int_of_toFloat64 (q : ℚ) (h : toFloat64 q = q) :
    ∃ k : Int, q * ((2 ^ 1074 : Int) : ℚ) = (k : ℚ) * ((2 ^ f64Shift q : Int) : ℚ) := by
  refine ⟨roundHalfEven (q * ((2 ^ 1074 : Int) : ℚ) / ((2 ^ f64Shift q : Int) : ℚ)), ?_⟩
  have h1 : ((2 ^ 1074 : Int) : ℚ) ≠ 0 := by positivity
  unfold toFloat64 at h
  rw [div_eq_iff h1] at h
  exact h.symm

/-- The integer part of `|q|` in units of `2^-1074`. -/
theorem units_le (q : ℚ) :
    ((Int.natAbs (Int.floor |q * ((2 ^ 1074 : Int) : ℚ)|) : Nat) : ℚ) ≤
      |q * ((2 ^ 1074 : Int) : ℚ)| := by
  have h0 : 0 ≤ Int.floor |q * ((2 ^ 1074 : Int) : ℚ)| := Int.floor_nonneg.2 (abs_nonneg _)
  have h1 : ((Int.natAbs (Int.floor |q * ((2 ^ 1074 : Int) : ℚ)|) : Nat) : Int) =
      Int.floor |q * ((2 ^ 1074 : Int) : ℚ)| := Int.natAbs_of_nonneg h0
  have h2 : ((Int.natAbs (Int.floor |q * ((2 ^ 1074 : Int) : ℚ)|) : Nat) : ℚ) =
      ((Int.floor |q * ((2 ^ 1074 : Int) : ℚ)| : Int) : ℚ) := by
    rw [← Int.cast_natCast, h1]
  rw [h2]
  exact Int.floor_le _

theorem lt_units_succ (q : ℚ) :
    |q * ((2 ^ 1074 : Int) : ℚ)| <
      ((Int.natAbs (Int.floor |q * ((2 ^ 1074 : Int) : ℚ)|) : Nat) : ℚ) + 1 := by
  have h0 : 0 ≤ Int.floor |q * ((2 ^ 1074 : Int) : ℚ)| := Int.floor_nonneg.2 (abs_nonneg _)
  have h1 : ((Int.natAbs (Int.floor |q * ((2 ^ 1074 : Int) : ℚ)|) : Nat) : Int) =
      Int.floor |q * ((2 ^ 1074 : Int) : ℚ)| := Int.natAbs_of_nonneg h0
  have h2 : ((Int.natAbs (Int.floor |q * ((2 ^ 1074 : Int) : ℚ)|) : Nat) : ℚ) =
      ((Int.floor |q * ((2 ^ 1074 : Int) : ℚ)| : Int) : ℚ) := by
    rw [← Int.cast_natCast, h1]
  rw [h2]
  exact Int.lt_floor_add_one _

theorem log2_div_two_pow (n k : Nat) (h : 2 ^ k ≤ n) :
    Nat.log2 n = k + Nat.log2 (n / 2 ^ k) := by
  have hn : n ≠ 0 := by
    have : 0 < 2 ^ k := Nat.two_pow_pos k
    omega
  have hm : n / 2 ^ k ≠ 0 := by
    have := (Nat.one_le_div_iff (Nat.two_pow_pos k)).2 h
    omega
  have h1 : 2 ^ Nat.log2 (n / 2 ^ k) ≤ n / 2 ^ k := Nat.log2_self_le hm
  have h2 : n / 2 ^ k < 2 ^ (Nat.log2 (n / 2 ^ k) + 1) := Nat.lt_log2_self
  have h3 : 2 ^ (k + Nat.log2 (n / 2 ^ k)) ≤ n := by
    rw [pow_add]
    calc 2 ^ k * 2 ^ Nat.log2 (n / 2 ^ k) ≤ 2 ^ k * (n / 2 ^ k) := Nat.mul_le_mul_left _ h1
      _ ≤ n := Nat.mul_div_le n (2 ^ k)
  have h4 : n < 2 ^ (k + Nat.log2 (n / 2 ^ k) + 1) := by
    have e : 2 ^ (k + Nat.log2 (n / 2 ^ k) + 1) = 2 ^ (Nat.log2 (n / 2 ^ k) + 1) * 2 ^ k := by
      rw [← pow_add]
      congr 1
      omega
    rw [e]
    exact (Nat.div_lt_iff_lt_mul (Nat.two_pow_pos k)).1 h2
  have h5 := (Nat.le_log2 hn).2 h3
  have h6 := (Nat.log2_lt hn).2 h4
  omega

theorem log2Bits_eq (b n : Nat) (h : n < 2 ^ 2 ^ b) : log2Bits b n = Nat.log2 n := by
  induction b generalizing n with
  | zero =>
    have h2 : n < 2 := by simpa using h
    rw [Nat.log2]
    have : ¬ n ≥ 2 := by omega
    simp [log2Bits, this]
  | succ b ih =>
    rw [log2Bits]
    by_cases hc : 2 ^ 2 ^ b ≤ n
    · simp only [hc, if_true]
      have hlt : n / 2 ^ 2 ^ b < 2 ^ 2 ^ b := by
        apply (Nat.div_lt_iff_lt_mul (Nat.two_pow_pos _)).2
        rw [← pow_add]
        have e : 2 ^ b + 2 ^ b = 2 ^ (b + 1) := by
          rw [pow_succ]
          omega
        rw [e]
        exact h
      rw [ih _ hlt, log2_div_two_pow n (2 ^ b) hc]
    · simp only [hc, if_false]
      exact ih n (by omega)

theorem bitLog_eq (n : Nat) : bitLog n = Nat.log2 n := by
  unfold bitLog
  split
  · rename_i h
    exact log2Bits_eq 12 n h
  · exact log2Fuel_eq n n (le_refl n)

theorem f64Shift_eq (q : ℚ) :
    f64Shift q = Nat.log2 (Int.natAbs (Int.floor |q * ((2 ^ 1074 : Int) : ℚ)|)) - 52 := by
  unfold f64Shift
  rw [bitLog_eq]

/-- Below `2^(53+j)` units the spacing is at most `2^j` units. -/
theorem f64Shift_le (q : ℚ) (j : Nat)
    (h : |q * ((2 ^ 1074 : Int) : ℚ)| < ((2 ^ (53 + j) : Nat) : ℚ)) : f64Shift q ≤ j := by
  rw [f64Shift_eq]
  by_cases h0 : Int.natAbs (Int.floor |q * ((2 ^ 1074 : Int) : ℚ)|) = 0
  · rw [h0]
    have : Nat.log2 0 = 0 := by rw [Nat.log2]; simp
    omega
  · have h1 : ((Int.natAbs (Int.floor |q * ((2 ^ 1074 : Int) : ℚ)|) : Nat) : ℚ) <
        ((2 ^ (53 + j) : Nat) : ℚ) := lt_of_le_of_lt (units_le q) h
    have h2 : Int.natAbs (Int.floor |q * ((2 ^ 1074 : Int) : ℚ)|) < 2 ^ (53 + j) := by
      exact_mod_cast h1
    have h3 := (Nat.log2_lt h0).2 h2
    omega

/-- From a spacing below `2^j` units, a magnitude below `2^(52+j)` units. -/
theorem lt_of_f64Shift_lt (q : ℚ) (j : Nat) (h : f64Shift q < j) :
    |q * ((2 ^ 1074 : Int) : ℚ)| < ((2 ^ (52 + j) : Nat) : ℚ) := by
  rw [f64Shift_eq] at h
  have h1 : Int.natAbs (Int.floor |q * ((2 ^ 1074 : Int) : ℚ)|) + 1 ≤ 2 ^ (52 + j) := by
    by_cases h0 : Int.natAbs (Int.floor |q * ((2 ^ 1074 : Int) : ℚ)|) = 0
    · rw [h0]
      exact Nat.one_le_two_pow
    · have := (Nat.log2_lt (k := 52 + j) h0).1 (by omega)
      omega
  have h2 : ((Int.natAbs (Int.floor |q * ((2 ^ 1074 : Int) : ℚ)|) : Nat) : ℚ) + 1 ≤
      ((2 ^ (52 + j) : Nat) : ℚ) := by
    exact_mod_cast h1
  exact lt_of_lt_of_le (lt_units_succ q) h2

theorem f64Shift_mul16 (q : ℚ) : f64Shift (q * 16) ≤ f64Shift q + 4 := by
  have h1 : |q * 16 * ((2 ^ 1074 : Int) : ℚ)| <
      ((2 ^ (53 + (f64Shift q + 4)) : Nat) : ℚ) := by
    have h2 := lt_of_f64Shift_lt q (f64Shift q + 1) (by omega)
    have e : q * 16 * ((2 ^ 1074 : Int) : ℚ) = 16 * (q * ((2 ^ 1074 : Int) : ℚ)) := by ring
    rw [e, abs_mul]
    have e2 : ((2 ^ (53 + (f64Shift q + 4)) : Nat) : ℚ) =
        16 * ((2 ^ (52 + (f64Shift q + 1)) : Nat) : ℚ) := by
      push_cast
      ring
    rw [e2]
    have e3 : |(16 : ℚ)| = 16 := abs_of_pos (by norm_num)
    rw [e3]
    linarith
  exact f64Shift_le _ _ h1

/-- A float64 value times 16 is a float64 value. -/
theorem toFloat64_mul16 (q : ℚ) (h : toFloat64 q = q) : toFloat64 (q * 16) = q * 16 := by
  obtain ⟨k, hk⟩ := int_of_toFloat64 q h
  have hs := f64Shift_mul16 q
  obtain ⟨d, hd⟩ : ∃ d : Nat, f64Shift q + 4 = f64Shift (q * 16) + d := ⟨_, (Nat.add_sub_cancel' hs).symm⟩
  apply toFloat64_of_int (q * 16) (k * 2 ^ d)
  have h2 : ((2 ^ f64Shift (q * 16) : Int) : ℚ) ≠ 0 := by positivity
  rw [div_eq_iff h2]
  have e : q * 16 * ((2 ^ 1074 : Int) : ℚ) = 16 * (q * ((2 ^ 1074 : Int) : ℚ)) := by ring
  rw [e, hk]
  push_cast
  have e2 : (16 : ℚ) * 2 ^ f64Shift q = 2 ^ d * 2 ^ f64Shift (q * 16) := by
    rw [← pow_add, Nat.add_comm d, ← hd, pow_add]
    norm_num
    ring
  linear_combination (k : ℚ) * e2

/-- Integers of magnitude at most `2^53` are float64 values. -/
theorem toFloat64_intCast (n : Int) (h : |n| ≤ 2 ^ 53) : toFloat64 (n : ℚ) = n := by
  rcases lt_or_eq_of_le h with h1 | h1
  · have hs : f64Shift (n : ℚ) ≤ 1074 := by
      apply f64Shift_le
      rw [abs_mul]
      have e1 : |(((2 ^ 1074 : Int)) : ℚ)| = ((2 ^ 1074 : Int) : ℚ) := abs_of_pos (by positivity)
      rw [e1]
      have e2 : |(n : ℚ)| < 2 ^ 53 := by
        have : ((|n| : Int) : ℚ) < ((2 ^ 53 : Int) : ℚ) := by exact_mod_cast h1
        simpa using this
      have e3 : ((2 ^ (53 + 1074) : Nat) : ℚ) = 2 ^ 53 * ((2 ^ 1074 : Int) : ℚ) := by
        push_cast
        ring
      rw [e3]
      exact mul_lt_mul_of_pos_right e2 (by positivity)
    obtain ⟨d, hd⟩ : ∃ d : Nat, 1074 = f64Shift (n : ℚ) + d := ⟨_, (Nat.add_sub_cancel' hs).symm⟩
    apply toFloat64_of_int (n : ℚ) (n * 2 ^ d)
    have h2 : ((2 ^ f64Shift (n : ℚ) : Int) : ℚ) ≠ 0 := by positivity
    rw [div_eq_iff h2]
    push_cast
    have e2 : (2 : ℚ) ^ 1074 = 2 ^ d * 2 ^ f64Shift (n : ℚ) := by
      rw [← pow_add, Nat.add_comm d, ← hd]
    linear_combination (n : ℚ) * e2
  · rcases abs_eq (by norm_num : (0 : Int) ≤ 2 ^ 53) |>.1 h1 with e | e
    · subst e
      decide!
    · subst e
      decide!

/-- Rounding a multiple of 16 gives a multiple of 16. -/
theorem toFloat64_aligned (m : Int) : ∃ m' : Int, toFloat64 ((m : ℚ) * 16) = (m' : ℚ) * 16 := by
  by_cases hs : f64Shift ((m : ℚ) * 16) ≤ 1078
  · refine ⟨m, ?_⟩
    obtain ⟨d, hd⟩ : ∃ d : Nat, 1078 = f64Shift ((m : ℚ) * 16) + d :=
      ⟨_, (Nat.add_sub_cancel' hs).symm⟩
    apply toFloat64_of_int _ (m * 2 ^ d)
    have h2 : ((2 ^ f64Shift ((m : ℚ) * 16) : Int) : ℚ) ≠ 0 := by positivity
    rw [div_eq_iff h2]
    push_cast
    have e2 : (2 : ℚ) ^ 1078 = 2 ^ d * 2 ^ f64Shift ((m : ℚ) * 16) := by
      rw [← pow_add, Nat.add_comm d, ← hd]
    have e3 : (2 : ℚ) ^ 1078 = 16 * 2 ^ 1074 := by norm_num
    linear_combination (m : ℚ) * e2 - (m : ℚ) * e3
  · obtain ⟨d, hd⟩ : ∃ d : Nat, f64Shift ((m : ℚ) * 16) = 1078 + d :=
      ⟨_, (Nat.add_sub_cancel' (by omega : 1078 ≤ f64Shift ((m : ℚ) * 16))).symm⟩
    refine ⟨roundHalfEven ((m : ℚ) * 16 * ((2 ^ 1074 : Int) : ℚ) /
      ((2 ^ f64Shift ((m : ℚ) * 16) : Int) : ℚ)) * 2 ^ d, ?_⟩
    unfold toFloat64
    have h1 : ((2 ^ 1074 : Int) : ℚ) ≠ 0 := by positivity
    rw [div_eq_iff h1]
    push_cast
    rw [hd, pow_add]
    have e3 : (2 : ℚ) ^ 1078 = 16 * 2 ^ 1074 := by norm_num
    rw [e3]
    ring

/-- The floor of a float64 value is a float64 value. -/
theorem toFloat64_floor (w : ℚ) (h : toFloat64 w = w) :
    toFloat64 ((Int.floor w : Int) : ℚ) = ((Int.floor w : Int) : ℚ) := by
  by_cases hs : f64Shift w < 1074
  · have h1 := lt_of_f64Shift_lt w 1074 hs
    rw [abs_mul] at h1
    have e1 : |(((2 ^ 1074 : Int)) : ℚ)| = ((2 ^ 1074 : Int) : ℚ) := abs_of_pos (by positivity)
    rw [e1] at h1
    have e3 : ((2 ^ (52 + 1074) : Nat) : ℚ) = 2 ^ 52 * ((2 ^ 1074 : Int) : ℚ) := by
      push_cast
      ring
    rw [e3] at h1
    have h2 : |w| < 2 ^ 52 := lt_of_mul_lt_mul_right h1 (by positivity)
    have h3 := abs_lt.1 h2
    apply toFloat64_intCast
    rw [abs_le]
    constructor
    · have : ((-(2 ^ 52) : Int) : ℚ) ≤ w := by
        push_cast
        linarith
      have := Int.le_floor.2 this
      omega
    · have : ((Int.floor w : Int) : ℚ) ≤ w := Int.floor_le w
      have h5 : ((Int.floor w : Int) : ℚ) < ((2 ^ 52 : Int) : ℚ) := by
        push_cast
        linarith
      have : Int.floor w < 2 ^ 52 := by exact_mod_cast h5
      omega
  · obtain ⟨k, hk⟩ := int_of_toFloat64 w h
    obtain ⟨d, hd⟩ : ∃ d : Nat, f64Shift w = 1074 + d :=
      ⟨_, (Nat.add_sub_cancel' (by omega : 1074 ≤ f64Shift w)).symm⟩
    have hw : w = ((k * 2 ^ d : Int) : ℚ) := by
      have h1 : ((2 ^ 1074 : Int) : ℚ) ≠ 0 := by positivity
      apply mul_right_cancel₀ h1
      rw [hk, hd]
      push_cast
      ring
    rw [hw, Int.floor_intCast, ← hw, h]

/-- At or above `2^(52+j)` units the spacing is at least `2^j` units. -/
theorem le_f64Shift (q : ℚ) (j : Nat)
    (h : ((2 ^ (52 + j) : Nat) : ℚ) ≤ |q * ((2 ^ 1074 : Int) : ℚ)|) : j ≤ f64Shift q := by
  rw [f64Shift_eq]
  have h1 : ((2 ^ (52 + j) : Nat) : ℚ) <
      ((Int.natAbs (Int.floor |q * ((2 ^ 1074 : Int) : ℚ)|) : Nat) : ℚ) + 1 :=
    lt_of_le_of_lt h (lt_units_succ q)
  have h2 : 2 ^ (52 + j) < Int.natAbs (Int.floor |q * ((2 ^ 1074 : Int) : ℚ)|) + 1 := by
    exact_mod_cast h1
  have h3 : 2 ^ (52 + j) ≤ Int.natAbs (Int.floor |q * ((2 ^ 1074 : Int) : ℚ)|) := by omega
  have h0 : Int.natAbs (Int.floor |q * ((2 ^ 1074 : Int) : ℚ)|) ≠ 0 := by
    have : 0 < 2 ^ (52 + j) := Nat.two_pow_pos _
    omega
  have := (Nat.le_log2 h0).2 h3
  omega

/-- Above the first normal binade the magnitude is at least `2^52` spacings. -/
theorem pow_le_units_of_shift_pos (q : ℚ) (h : 0 < f64Shift q) :
    ((2 ^ (52 + f64Shift q) : Nat) : ℚ) ≤ |q * ((2 ^ 1074 : Int) : ℚ)| := by
  have hs := f64Shift_eq q
  have h0 : Int.natAbs (Int.floor |q * ((2 ^ 1074 : Int) : ℚ)|) ≠ 0 := by
    intro e
    rw [e] at hs
    have : Nat.log2 0 = 0 := by rw [Nat.log2]; simp
    omega
  have h1 := Nat.log2_self_le h0
  have e : 52 + f64Shift q = Nat.log2 (Int.natAbs (Int.floor |q * ((2 ^ 1074 : Int) : ℚ)|)) := by
    omega
  rw [e]
  have h2 : ((2 ^ Nat.log2 (Int.natAbs (Int.floor |q * ((2 ^ 1074 : Int) : ℚ)|)) : Nat) : ℚ) ≤
      ((Int.natAbs (Int.floor |q * ((2 ^ 1074 : Int) : ℚ)|) : Nat) : ℚ) := by
    exact_mod_cast h1
  exact le_trans h2 (units_le q)

/-- Dividing a float64 value of magnitude at least `2^-1018` by `size` is exact. -/
theorem fdiv_size_exact (v : ℚ) (hv : toFloat64 v = v) (hbig : 1 / 2 ^ 1018 ≤ |v|) :
    fdiv v size = v / size := by
  obtain ⟨k, hk⟩ := int_of_toFloat64 v hv
  have hP : (0 : ℚ) < ((2 ^ 1074 : Int) : ℚ) := by positivity
  have eP : |(((2 ^ 1074 : Int)) : ℚ)| = ((2 ^ 1074 : Int) : ℚ) := abs_of_pos hP
  have hw : |v * ((2 ^ 1074 : Int) : ℚ)| = 16 * |v / 16 * ((2 ^ 1074 : Int) : ℚ)| := by
    have e : v * ((2 ^ 1074 : Int) : ℚ) = 16 * (v / 16 * ((2 ^ 1074 : Int) : ℚ)) := by ring
    rw [e, abs_mul, abs_of_pos (by norm_num : (0 : ℚ) < 16)]
  have hsh : f64Shift (v / 16) + 4 ≤ f64Shift v := by
    apply le_f64Shift
    rw [hw]
    have e2 : ((2 ^ (52 + (f64Shift (v / 16) + 4)) : Nat) : ℚ) =
        16 * ((2 ^ (52 + f64Shift (v / 16)) : Nat) : ℚ) := by
      push_cast
      ring
    rw [e2]
    apply mul_le_mul_of_nonneg_left _ (by norm_num)
    by_cases h0 : 0 < f64Shift (v / 16)
    · exact pow_le_units_of_shift_pos _ h0
    · have e0 : f64Shift (v / 16) = 0 := by omega
      rw [e0, abs_mul, eP, abs_div, abs_of_pos (by norm_num : (0 : ℚ) < 16)]
      have h3 : (1 : ℚ) / 2 ^ 1018 / 16 * ((2 ^ 1074 : Int) : ℚ) ≤
          |v| / 16 * ((2 ^ 1074 : Int) : ℚ) := by
        apply mul_le_mul_of_nonneg_right _ (le_of_lt hP)
        exact div_le_div_of_nonneg_right hbig (by norm_num)
      have e4 : (1 : ℚ) / 2 ^ 1018 / 16 * ((2 ^ 1074 : Int) : ℚ) =
          ((2 ^ (52 + 0) : Nat) : ℚ) := by
        push_cast
        have : (2 : ℚ) ^ 1074 = 2 ^ 1018 * 16 * 2 ^ 52 := by
          rw [show (16 : ℚ) = 2 ^ 4 by norm_num, ← pow_add, ← pow_add]
        rw [this]
        field_simp
        norm_num
      rw [e4] at h3
      exact h3
  obtain ⟨d, hd⟩ : ∃ d : Nat, f64Shift v = f64Shift (v / 16) + 4 + d :=
    ⟨_, (Nat.add_sub_cancel' hsh).symm⟩
  unfold fdiv size
  apply toFloat64_of_int (v / 16) (k * 2 ^ d)
  have h2 : ((2 ^ f64Shift (v / 16) : Int) : ℚ) ≠ 0 := by positivity
  rw [div_eq_iff h2]
  have e : v / 16 * ((2 ^ 1074 : Int) : ℚ) = v * ((2 ^ 1074 : Int) : ℚ) / 16 := by ring
  rw [e, hk, hd]
  push_cast
  rw [pow_add, pow_add]
  ring

/-! ## The neighbours sent by `around` -/

theorem insideWindow_eq_true (x y : ℚ) : insideWindow x y = true := by
  unfold insideWindow maxX
  rcases le_or_lt 0 x with h | h
  · simp [h]
  · have : x < 1024 := by linarith
    simp [this]

/-- The bounds check never drops a tile: `around` sends one tile per direction. -/
theorem around_eq_map (t : Tile) :
    t.around = transformations.map fun d =>
      createTile (fsub t.x (fmul d.dx size)) (fsub t.y (fmul d.dy size)) := by
  simp only [Tile.around, insideWindow_eq_true, if_true]
  exact congrFun (List.filterMap_eq_map
    fun d : delta => createTile (fsub t.x (fmul d.dx size)) (fsub t.y (fmul d.dy size)))
    transformations

theorem length_around (t : Tile) : t.around.length = 8 := by
  rw [around_eq_map]
  rfl

theorem fresh_of_mem_around (t u : Tile) (h : u ∈ t.around) : u = createTile u.x u.y := by
  rw [around_eq_map] at h
  simp only [List.mem_map] at h
  obtain ⟨d, -, rfl⟩ := h
  rfl

theorem fmul_size : fmul 0 size = 0 ∧ fmul 1 size = 16 ∧ fmul (-1) size = -16 := by
  decide!

theorem toFloat64_mul_size (a : Int) (h : |a| ≤ 2 ^ 53) :
    toFloat64 ((a : ℚ) * 16) = (a : ℚ) * 16 :=
  toFloat64_mul16 _ (toFloat64_intCast a h)

/-- In range, subtracting `0`, `size` or `-size` is exact. -/
theorem fsub_exact (x : ℚ) (a : Int) (ha : |a| < 2 ^ 53) (hx : x = (a : ℚ) * size) :
    fsub x 0 = x ∧ fsub x 16 = x - size ∧ fsub x (-16) = x + size := by
  have h := abs_lt.1 ha
  subst hx
  unfold fsub size
  refine ⟨?_, ?_, ?_⟩
  · rw [sub_zero]
    exact toFloat64_mul_size a (le_of_lt ha)
  · have e : (a : ℚ) * 16 - 16 = ((a - 1 : Int) : ℚ) * 16 := by
      push_cast
      ring
    rw [e]
    exact toFloat64_mul_size _ (by rw [abs_le]; constructor <;> omega)
  · have e : (a : ℚ) * 16 - -16 = ((a + 1 : Int) : ℚ) * 16 := by
      push_cast
      ring
    have e2 : (a : ℚ) * 16 + 16 = ((a + 1 : Int) : ℚ) * 16 := by
      push_cast
      ring
    rw [e, e2]
    exact toFloat64_mul_size _ (by rw [abs_le]; constructor <;> omega)

/-- Whatever the magnitude, subtracting `0`, `size` or `-size` from a multiple of `size`
gives a multiple of `size`. -/
theorem fsub_aligned (x : ℚ) (a : Int) (hx : x = (a : ℚ) * size) :
    (∃ a' : Int, fsub x 0 = (a' : ℚ) * size) ∧ (∃ a' : Int, fsub x 16 = (a' : ℚ) * size) ∧
      (∃ a' : Int, fsub x (-16) = (a' : ℚ) * size) := by
  subst hx
  unfold fsub size
  refine ⟨?_, ?_, ?_⟩
  · rw [sub_zero]
    exact toFloat64_aligned a
  · have e : (a : ℚ) * 16 - 16 = ((a - 1 : Int) : ℚ) * 16 := by
      push_cast
      ring
    rw [e]
    exact toFloat64_aligned _
  · have e : (a : ℚ) * 16 - -16 = ((a + 1 : Int) : ℚ) * 16 := by
      push_cast
      ring
    rw [e]
    exact toFloat64_aligned _

/-- In range, `around` sends the eight exact neighbours. -/
theorem around_eq (t : Tile) (h : t.inRange) : t.around =
    [createTile t.x (t.y - size), createTile t.x (t.y + size),
     createTile (t.x - size) t.y, createTile (t.x + size) t.y,
     createTile (t.x - size) (t.y - size), createTile (t.x + size) (t.y + size),
     createTile (t.x + size) (t.y - size), createTile (t.x - size) (t.y + size)] := by
  obtain ⟨⟨a, ha, hx⟩, ⟨b, hb, hy⟩⟩ := h
  obtain ⟨x0, x1, x2⟩ := fsub_exact t.x a ha hx
  obtain ⟨y0, y1, y2⟩ := fsub_exact t.y b hb hy
  obtain ⟨m0, m1, m2⟩ := fmul_size
  rw [around_eq_map]
  simp only [transformations, List.map, m0, m1, m2, x0, x1, x2, y0, y1, y2]

theorem aligned_of_mem_around (t u : Tile) (ht : t.aligned) (hu : u ∈ t.around) :
    u.aligned := by
  obtain ⟨⟨a, hx⟩, ⟨b, hy⟩⟩ := ht
  obtain ⟨x0, x1, x2⟩ := fsub_aligned t.x a hx
  obtain ⟨y0, y1, y2⟩ := fsub_aligned t.y b hy
  obtain ⟨m0, m1, m2⟩ := fmul_size
  rw [around_eq_map] at hu
  simp only [transformations, List.map, m0, m1, m2, List.mem_cons, List.mem_singleton,
    List.not_mem_nil, or_false] at hu
  rcases hu with rfl | rfl | rfl | rfl | rfl | rfl | rfl | rfl
  · exact ⟨x0, y1⟩
  · exact ⟨x0, y2⟩
  · exact ⟨x1, y0⟩
  · exact ⟨x2, y0⟩
  · exact ⟨x1, y1⟩
  · exact ⟨x2, y2⟩
  · exact ⟨x2, y1⟩
  · exact ⟨x1, y2⟩

theorem nodup_coords_around (t : Tile) (h : t.inRange) : (coords t.around).Nodup := by
  simp only [around_eq t h, coords, List.map, Tile.key, createTile, size]
  simp only [List.nodup_cons, List.mem_cons, List.mem_singleton, key.mk.injEq, not_or, not_and,
    List.not_mem_nil, not_false_eq_true, List.nodup_nil, and_true]
  (repeat' apply And.intro) <;> intros <;> linarith

theorem key_not_mem_coords_around (t : Tile) (h : t.inRange) : t.key ∉ coords t.around := by
  simp only [around_eq t h, coords, List.map, Tile.key, createTile, size, List.mem_cons,
    List.mem_singleton, List.not_mem_nil, or_false, key.mk.injEq, not_or, not_and]
  (repeat' apply And.intro) <;> intros <;> linarith

theorem mem_coords_around_offsets (t : Tile) (h : t.inRange) (c : key) :
    c ∈ coords t.around ↔
      ∃ dx dy : Int, (dx = -1 ∨ dx = 0 ∨ dx = 1) ∧ (dy = -1 ∨ dy = 0 ∨ dy = 1) ∧
        ¬ (dx = 0 ∧ dy = 0) ∧ c = ⟨t.x + (dx : ℚ) * size, t.y + (dy : ℚ) * size⟩ := by
  obtain ⟨cx, cy⟩ := c
  simp only [around_eq t h, coords, List.map, Tile.key, createTile, size, List.mem_cons,
    List.mem_singleton, List.not_mem_nil, or_false, key.mk.injEq]
  constructor
  · rintro (⟨h1, h2⟩ | ⟨h1, h2⟩ | ⟨h1, h2⟩ | ⟨h1, h2⟩ | ⟨h1, h2⟩ | ⟨h1, h2⟩ | ⟨h1, h2⟩ | ⟨h1, h2⟩)
    · exact ⟨0, -1, by simp, by simp, by simp, by rw [h1, h2]; push_cast; constructor <;> ring⟩
    · exact ⟨0, 1, by simp, by simp, by simp, by rw [h1, h2]; push_cast; constructor <;> ring⟩
    · exact ⟨-1, 0, by simp, by simp, by simp, by rw [h1, h2]; push_cast; constructor <;> ring⟩
    · exact ⟨1, 0, by simp, by simp, by simp, by rw [h1, h2]; push_cast; constructor <;> ring⟩
    · exact ⟨-1, -1, by simp, by simp, by simp, by rw [h1, h2]; push_cast; constructor <;> ring⟩
    · exact ⟨1, 1, by simp, by simp, by simp, by rw [h1, h2]; push_cast; constructor <;> ring⟩
    · exact ⟨1, -1, by simp, by simp, by simp, by rw [h1, h2]; push_cast; constructor <;> ring⟩
    · exact ⟨-1, 1, by simp, by simp, by simp, by rw [h1, h2]; push_cast; constructor <;> ring⟩
  · rintro ⟨dx, dy, hx, hy, hne, h1, h2⟩
    rcases hx with hx | hx | hx <;> rcases hy with hy | hy | hy <;> subst hx <;> subst hy <;>
      subst h1 <;> subst h2 <;> first | (exfalso; exact hne (by decide)) | (push_cast; norm_num [← sub_eq_add_neg])

theorem mem_coords_around_iff (t : Tile) (h : t.inRange) (k : key) :
    k ∈ coords t.around ↔ t.key ∈ moore k := by
  obtain ⟨kx, ky⟩ := k
  simp only [around_eq t h, coords, List.map, Tile.key, createTile, moore, size, List.mem_cons,
    List.mem_singleton, List.not_mem_nil, or_false, key.mk.injEq]
  push_cast
  constructor
  · rintro (⟨h1, h2⟩ | ⟨h1, h2⟩ | ⟨h1, h2⟩ | ⟨h1, h2⟩ | ⟨h1, h2⟩ | ⟨h1, h2⟩ | ⟨h1, h2⟩ | ⟨h1, h2⟩) <;>
      subst h1 <;> subst h2 <;> norm_num
  · rintro (⟨h1, h2⟩ | ⟨h1, h2⟩ | ⟨h1, h2⟩ | ⟨h1, h2⟩ | ⟨h1, h2⟩ | ⟨h1, h2⟩ | ⟨h1, h2⟩ | ⟨h1, h2⟩) <;>
      rw [h1, h2] <;> norm_num

theorem moore_symm (a b : key) : a ∈ moore b ↔ b ∈ moore a := by
  obtain ⟨ax, ay⟩ := a
  obtain ⟨bx, b2⟩ := b
  simp only [moore, size, List.map, List.mem_cons, List.mem_singleton, List.not_mem_nil,
    or_false, key.mk.injEq]
  push_cast
  constructor
  · rintro (⟨h1, h2⟩ | ⟨h1, h2⟩ | ⟨h1, h2⟩ | ⟨h1, h2⟩ | ⟨h1, h2⟩ | ⟨h1, h2⟩ | ⟨h1, h2⟩ | ⟨h1, h2⟩) <;>
      subst h1 <;> subst h2 <;> norm_num
  · rintro (⟨h1, h2⟩ | ⟨h1, h2⟩ | ⟨h1, h2⟩ | ⟨h1, h2⟩ | ⟨h1, h2⟩ | ⟨h1, h2⟩ | ⟨h1, h2⟩ | ⟨h1, h2⟩) <;>
      subst h1 <;> subst h2 <;> norm_num

theorem mem_coords_around_iff_moore (t : Tile) (h : t.inRange) (k : key) :
    k ∈ coords t.around ↔ k ∈ moore t.key :=
  (mem_coords_around_iff t h k).trans (moore_symm _ _)

/-! ## The table: facts that hold for every input -/

theorem mapGet_mapSet (m : TileMap) (k k' : key) (v : Tile) :
    mapGet (mapSet m k v) k' = if k = k' then some v else mapGet m k' := by
  induction m with
  | nil => simp [mapSet, mapGet]
  | cons p m ih =>
    obtain ⟨a, b⟩ := p
    by_cases h : a = k
    · subst h
      by_cases h2 : a = k' <;> simp [mapSet, mapGet, h2]
    · simp only [mapSet, h, if_false, mapGet, ih]
      by_cases h2 : a = k'
      · have : ¬ k = k' := fun e => h (by rw [h2, e])
        simp [h2, this]
      · simp [h2]

theorem keys_mapSet (m : TileMap) (k : key) (v : Tile) :
    keys (mapSet m k v) = if k ∈ keys m then keys m else keys m ++ [k] := by
  induction m with
  | nil => simp [mapSet, keys]
  | cons p m ih =>
    obtain ⟨a, b⟩ := p
    by_cases h : a = k
    · subst h
      simp [mapSet, keys]
    · have h' : ¬ k = a := fun e => h e.symm
      simp only [keys] at ih
      simp only [mapSet, h, if_false, keys, List.map_cons, ih, List.mem_cons, h', false_or]
      split <;> simp

theorem nodup_keys_mapSet (m : TileMap) (k : key) (v : Tile) (h : (keys m).Nodup) :
    (keys (mapSet m k v)).Nodup := by
  rw [keys_mapSet]
  split
  · exact h
  · rename_i hk
    rw [List.nodup_append]
    refine ⟨h, by simp, ?_⟩
    intro a ha hb
    simp at hb
    exact hk (hb ▸ ha)

theorem mem_iff_mapGet (m : TileMap) (h : (keys m).Nodup) (k : key) (v : Tile) :
    (k, v) ∈ m ↔ mapGet m k = some v := by
  induction m with
  | nil => simp [mapGet]
  | cons p m ih =>
    obtain ⟨a, b⟩ := p
    simp only [keys, List.map_cons, List.nodup_cons] at h
    by_cases hk : a = k
    · subst hk
      simp only [List.mem_cons, Prod.mk.injEq, true_and, mapGet, if_true, Option.some.injEq]
      constructor
      · rintro (e | e)
        · exact e.symm
        · exact absurd (List.mem_map_of_mem Prod.fst e) h.1
      · intro e
        exact Or.inl e.symm
    · have hk' : ¬ k = a := fun e => hk e.symm
      simp only [List.mem_cons, Prod.mk.injEq, hk', false_and, false_or, mapGet, hk, if_false]
      exact ih h.2

theorem mem_of_mapGet (m : TileMap) (k : key) (v : Tile) (h : mapGet m k = some v) :
    (k, v) ∈ m := by
  induction m with
  | nil => simp [mapGet] at h
  | cons p m ih =>
    obtain ⟨a, b⟩ := p
    by_cases hk : a = k
    · subst hk
      simp only [mapGet, if_true, Option.some.injEq] at h
      subst h
      exact List.mem_cons_self _ _
    · simp only [mapGet, hk, if_false] at h
      exact List.mem_cons_of_mem _ (ih h)

theorem countNeighbour_eq (m : TileMap) (t : Tile) :
    countNeighbour m t = mapSet m t.key (bump (mapGet m t.key) t) := by
  unfold countNeighbour bump
  dsimp only
  cases mapGet m t.key <;> rfl

theorem mapGet_countNeighbour (m : TileMap) (t : Tile) (k : key) :
    mapGet (countNeighbour m t) k =
      if t.key = k then some (bump (mapGet m k) t) else mapGet m k := by
  rw [countNeighbour_eq, mapGet_mapSet]
  split
  · rename_i e
    subst e
    rfl
  · rfl

theorem nodup_keys_countNeighbour (m : TileMap) (t : Tile) (h : (keys m).Nodup) :
    (keys (countNeighbour m t)).Nodup := by
  rw [countNeighbour_eq]
  exact nodup_keys_mapSet _ _ _ h

theorem popTile_eq (m : TileMap) (tile : Tile) :
    popTile m tile =
      tile.around.foldl countNeighbour (mapSet m tile.key (markAlive (mapGet m tile.key) tile)) := by
  unfold popTile markAlive
  dsimp only
  cases mapGet m tile.key <;> rfl

theorem nodup_keys_foldl_countNeighbour (ts : List Tile) (m : TileMap) (h : (keys m).Nodup) :
    (keys (ts.foldl countNeighbour m)).Nodup := by
  induction ts generalizing m with
  | nil => exact h
  | cons t ts ih => exact ih _ (nodup_keys_countNeighbour m t h)

theorem nodup_keys_popTile (m : TileMap) (tile : Tile) (h : (keys m).Nodup) :
    (keys (popTile m tile)).Nodup := by
  rw [popTile_eq]
  exact nodup_keys_foldl_countNeighbour _ _ (nodup_keys_mapSet _ _ _ h)

theorem nodup_keys_crowding_aux (l : List Tile) (m : TileMap) (h : (keys m).Nodup) :
    (keys (l.foldl popTile m)).Nodup := by
  induction l generalizing m with
  | nil => exact h
  | cons t l ih => exact ih _ (nodup_keys_popTile m t h)

theorem nodup_keys_crowding (l : List Tile) : (keys (crowding l)).Nodup :=
  nodup_keys_crowding_aux l [] (by simp [keys])

theorem keyed_mapSet (m : TileMap) (k : key) (v : Tile)
    (hm : ∀ kv ∈ m, kv.2.key = kv.1) (hv : v.key = k) :
    ∀ kv ∈ mapSet m k v, kv.2.key = kv.1 := by
  induction m with
  | nil =>
    intro kv hkv
    simp only [mapSet, List.mem_singleton] at hkv
    subst hkv
    exact hv
  | cons p m ih =>
    obtain ⟨a, b⟩ := p
    have hm2 : ∀ kv ∈ m, kv.2.key = kv.1 := fun kv h => hm kv (List.mem_cons_of_mem _ h)
    intro kv hkv
    by_cases hk : a = k
    · simp only [mapSet, hk, if_true, List.mem_cons] at hkv
      rcases hkv with e | e
      · subst e
        exact hv
      · exact hm2 kv e
    · simp only [mapSet, hk, if_false, List.mem_cons] at hkv
      rcases hkv with e | e
      · subst e
        exact hm (a, b) (List.mem_cons_self _ _)
      · exact ih hm2 kv e

theorem key_bump (o : Option Tile) (t : Tile) (k : key) (ht : t.key = k)
    (ho : ∀ v, o = some v → v.key = k) : (bump o t).key = k := by
  cases o with
  | none => exact ht
  | some v => exact ho v rfl

theorem key_markAlive (o : Option Tile) (t : Tile) (k : key) (ht : t.key = k)
    (ho : ∀ v, o = some v → v.key = k) : (markAlive o t).key = k := by
  cases o with
  | none => exact ht
  | some v => exact ho v rfl

theorem keyed_countNeighbour (m : TileMap) (t : Tile) (hm : ∀ kv ∈ m, kv.2.key = kv.1) :
    ∀ kv ∈ countNeighbour m t, kv.2.key = kv.1 := by
  rw [countNeighbour_eq]
  exact keyed_mapSet m _ _ hm
    (key_bump _ t _ rfl fun v hv => hm (t.key, v) (mem_of_mapGet m _ v hv))

theorem keyed_foldl_countNeighbour (ts : List Tile) (m : TileMap)
    (hm : ∀ kv ∈ m, kv.2.key = kv.1) :
    ∀ kv ∈ ts.foldl countNeighbour m, kv.2.key = kv.1 := by
  induction ts generalizing m with
  | nil => exact hm
  | cons t ts ih => exact ih _ (keyed_countNeighbour m t hm)

theorem keyed_popTile (m : TileMap) (tile : Tile) (hm : ∀ kv ∈ m, kv.2.key = kv.1) :
    ∀ kv ∈ popTile m tile, kv.2.key = kv.1 := by
  rw [popTile_eq]
  exact keyed_foldl_countNeighbour _ _ (keyed_mapSet m _ _ hm
    (key_markAlive _ tile _ rfl fun v hv => hm (tile.key, v) (mem_of_mapGet m _ v hv)))

theorem keyed_foldl_popTile (l : List Tile) (m : TileMap) (hm : ∀ kv ∈ m, kv.2.key = kv.1) :
    ∀ kv ∈ l.foldl popTile m, kv.2.key = kv.1 := by
  induction l generalizing m with
  | nil => exact hm
  | cons t l ih => exact ih _ (keyed_popTile m t hm)

theorem keyed_crowding (l : List Tile) : ∀ kv ∈ crowding l, kv.2.key = kv.1 :=
  keyed_foldl_popTile l [] (by simp)

theorem n_zero_of_mem_step (l : List Tile) (t : Tile) (ht : t ∈ step l) : t.n = 0 := by
  unfold step survivors at ht
  simp only [List.mem_filterMap] at ht
  obtain ⟨kv, -, hs⟩ := ht
  simp only [survives] at hs
  split at hs
  · simp only [Option.some.injEq] at hs
    subst hs
    rfl
  · split at hs
    · simp only [Option.some.injEq] at hs
      subst hs
      rfl
    · cases hs

theorem key_of_survives (v w : Tile) (h : survives v = some w) : w.key = v.key := by
  simp only [survives] at h
  split at h
  · simp only [Option.some.injEq] at h
    subst h
    rfl
  · split at h
    · simp only [Option.some.injEq] at h
      subst h
      rfl
    · cases h

theorem coords_survivors_sublist (m : TileMap) (hk : ∀ kv ∈ m, kv.2.key = kv.1) :
    (coords (survivors m)).Sublist (keys m) := by
  induction m with
  | nil => simp [coords, survivors, keys]
  | cons p m ih =>
    have ih2 := ih fun kv hkv => hk kv (List.mem_cons_of_mem _ hkv)
    have hp := hk p (List.mem_cons_self _ _)
    simp only [coords, survivors, keys, List.map_cons] at ih2 ⊢
    rw [List.filterMap_cons]
    cases hs : survives p.2 with
    | none => exact List.Sublist.cons _ ih2
    | some w =>
      simp only [List.map_cons]
      rw [key_of_survives _ _ hs, hp]
      exact List.Sublist.cons₂ _ ih2

/-- The result of `step` holds every coordinate at most once, whatever the input. -/
theorem nodup_coords_step_all (l : List Tile) : (coords (step l)).Nodup :=
  List.Nodup.sublist (coords_survivors_sublist _ (keyed_crowding l)) (nodup_keys_crowding l)

theorem survives_isSome_iff (v : Tile) :
    (survives v).isSome = true ↔
      (2 ≤ v.n ∧ v.n < 4 ∧ v.alive = true) ∨ (v.n = 3 ∧ v.alive = false) := by
  unfold survives
  by_cases h1 : 2 ≤ v.n ∧ v.n < 4 ∧ v.alive = true
  · simp [h1]
  · by_cases h2 : v.n = 3 ∧ v.alive = false
    · simp [h1, h2]
    · simp [h1, h2]

/-- Membership in the result of `step`, read off the table. -/
theorem mem_coords_step_iff (l : List Tile) (c : key) :
    c ∈ coords (step l) ↔
      ∃ v, mapGet (crowding l) c = some v ∧ (survives v).isSome = true := by
  unfold step survivors coords
  simp only [List.mem_map, List.mem_filterMap]
  constructor
  · rintro ⟨w, ⟨⟨k, v⟩, hkv, hs⟩, hw⟩
    have hg := (mem_iff_mapGet _ (nodup_keys_crowding l) k v).1 hkv
    have hvk : v.key = k := keyed_crowding l (k, v) hkv
    have hwk : w.key = v.key := key_of_survives v w hs
    refine ⟨v, ?_, ?_⟩
    · rw [← hw, hwk, hvk]
      exact hg
    · simp [hs]
  · rintro ⟨v, hg, hs⟩
    have hkv := (mem_iff_mapGet _ (nodup_keys_crowding l) c v).2 hg
    have hvk : v.key = c := keyed_crowding l (c, v) hkv
    obtain ⟨w, hw⟩ := Option.isSome_iff_exists.1 hs
    exact ⟨w, ⟨(c, v), hkv, hw⟩, (key_of_survives v w hw).trans hvk⟩

theorem mem_keys_mapSet (m : TileMap) (k' : key) (v : Tile) (k : key) :
    k ∈ keys (mapSet m k' v) ↔ (k ∈ keys m ∨ k = k') := by
  rw [keys_mapSet]
  split
  · rename_i h
    constructor
    · exact Or.inl
    · rintro (h1 | h1)
      · exact h1
      · exact h1 ▸ h
  · simp

theorem mem_keys_countNeighbour (m : TileMap) (t : Tile) (k : key) :
    k ∈ keys (countNeighbour m t) ↔ (k ∈ keys m ∨ k = t.key) := by
  rw [countNeighbour_eq, mem_keys_mapSet]

theorem mem_keys_foldl_countNeighbour (ts : List Tile) (m : TileMap) (k : key) :
    k ∈ keys (ts.foldl countNeighbour m) ↔ (k ∈ keys m ∨ k ∈ coords ts) := by
  induction ts generalizing m with
  | nil => simp [coords]
  | cons t ts ih =>
    rw [List.foldl_cons, ih, mem_keys_countNeighbour]
    simp only [coords, List.map_cons, List.mem_cons]
    tauto

theorem mem_keys_popTile (m : TileMap) (tile : Tile) (k : key) :
    k ∈ keys (popTile m tile) ↔ (k ∈ keys m ∨ k = tile.key ∨ k ∈ coords tile.around) := by
  rw [popTile_eq, mem_keys_foldl_countNeighbour, mem_keys_mapSet]
  tauto

theorem mem_keys_foldl_popTile (l : List Tile) (m : TileMap) (k : key) :
    k ∈ keys (l.foldl popTile m) ↔
      (k ∈ keys m ∨ k ∈ coords l ∨ ∃ t ∈ l, k ∈ coords t.around) := by
  induction l generalizing m with
  | nil => simp [coords]
  | cons t l ih =>
    rw [List.foldl_cons, ih, mem_keys_popTile]
    simp only [coords, List.map_cons, List.mem_cons, exists_eq_or_imp]
    tauto

/-- The keys of the table: the coordinates popped and the coordinates `around` sends. -/
theorem mem_keys_crowding (l : List Tile) (k : key) :
    k ∈ keys (crowding l) ↔ (k ∈ coords l ∨ ∃ t ∈ l, k ∈ coords t.around) := by
  unfold crowding
  rw [mem_keys_foldl_popTile]
  simp [keys]

/-- The list of every coordinate popped or sent by `around`, with repetitions. -/
theorem length_reach (l : List Tile) :
    (coords l ++ l.flatMap fun t => coords t.around).length = 9 * l.length := by
  have h : ∀ l : List Tile, (l.flatMap fun t => coords t.around).length = 8 * l.length := by
    intro l
    induction l with
    | nil => rfl
    | cons t l ih =>
      rw [List.flatMap_cons, List.length_append, ih]
      simp only [List.length_cons, coords, List.length_map, length_around]
      omega
  rw [List.length_append, h]
  simp only [coords, List.length_map]
  omega

theorem length_crowding_le (l : List Tile) : (crowding l).length ≤ 9 * l.length := by
  have hsub : keys (crowding l) ⊆ coords l ++ l.flatMap fun t => coords t.around := by
    intro k hk
    rcases (mem_keys_crowding l k).1 hk with h | ⟨t, ht, h⟩
    · exact List.mem_append_left _ h
    · exact List.mem_append_right _ (List.mem_flatMap.2 ⟨t, ht, h⟩)
  have h := (List.subperm_of_subset (nodup_keys_crowding l) hsub).length_le
  rw [length_reach] at h
  simpa [keys] using h

theorem length_step_le (l : List Tile) : (step l).length ≤ 9 * l.length := by
  have h : (step l).length ≤ (crowding l).length := by
    unfold step survivors
    exact List.length_filterMap_le _ _
  exact le_trans h (length_crowding_le l)

theorem mem_keys_of_mem_step (l : List Tile) (t : Tile) (ht : t ∈ step l) :
    t.key ∈ keys (crowding l) :=
  (coords_survivors_sublist _ (keyed_crowding l)).subset (List.mem_map_of_mem Tile.key ht)

theorem aligned_of_mem_step (l : List Tile) (hal : ∀ t ∈ l, t.aligned) (t : Tile)
    (ht : t ∈ step l) : t.aligned := by
  rcases (mem_keys_crowding l t.key).1 (mem_keys_of_mem_step l t ht) with h | ⟨u, hu, h⟩
  · simp only [coords, List.mem_map] at h
    obtain ⟨u, hu, hk⟩ := h
    simp only [Tile.key, key.mk.injEq] at hk
    obtain ⟨⟨a, ha⟩, ⟨b, hb⟩⟩ := hal u hu
    exact ⟨⟨a, by rw [← hk.1, ha]⟩, ⟨b, by rw [← hk.2, hb]⟩⟩
  · simp only [coords, List.mem_map] at h
    obtain ⟨v, hv, hk⟩ := h
    simp only [Tile.key, key.mk.injEq] at hk
    obtain ⟨⟨a, ha⟩, ⟨b, hb⟩⟩ := aligned_of_mem_around u v (hal u hu) hv
    exact ⟨⟨a, by rw [← hk.1, ha]⟩, ⟨b, by rw [← hk.2, hb]⟩⟩

theorem crowdingLoop_of_le (cells : List Tile) (m : TileMap) (extra : Nat) :
    crowdingLoop (cells.length + extra) cells m = some (cells.foldl popTile m) := by
  induction cells generalizing m with
  | nil => simp [crowdingLoop]
  | cons t cells ih =>
    have e : (t :: cells).length + extra = (cells.length + extra) + 1 := by
      simp only [List.length_cons]
      omega
    rw [e, crowdingLoop, ih, List.foldl_cons]

theorem crowdingLoop_of_lt (cells : List Tile) (m : TileMap) (fuel : Nat)
    (h : fuel < cells.length) : crowdingLoop fuel cells m = none := by
  induction cells generalizing m fuel with
  | nil => simp at h
  | cons t cells ih =>
    cases fuel with
    | zero => simp [crowdingLoop]
    | succ fuel =>
      rw [crowdingLoop]
      exact ih _ _ (by simpa using h)

theorem popTile_congr (m : TileMap) (t u : Tile) (hx : t.x = u.x) (hy : t.y = u.y)
    (hn : t.n = u.n) : popTile m t = popTile m u := by
  obtain ⟨tx, ty, tn, ta⟩ := t
  obtain ⟨ux, uy, un, ua⟩ := u
  simp only at hx hy hn
  subst hx
  subst hy
  subst hn
  rfl

theorem foldl_popTile_congr (l1 l2 : List Tile) (m : TileMap)
    (h : List.Forall₂ (fun t u => t.x = u.x ∧ t.y = u.y ∧ t.n = u.n) l1 l2) :
    l1.foldl popTile m = l2.foldl popTile m := by
  induction h generalizing m with
  | nil => rfl
  | cons hh _ ih =>
    rw [List.foldl_cons, List.foldl_cons, popTile_congr m _ _ hh.1 hh.2.1 hh.2.2]
    exact ih _

theorem forall₂_of_coords_eq (l1 l2 : List Tile)
    (hn1 : ∀ t ∈ l1, t.n = 0) (hn2 : ∀ t ∈ l2, t.n = 0) (hc : coords l1 = coords l2) :
    List.Forall₂ (fun t u => t.x = u.x ∧ t.y = u.y ∧ t.n = u.n) l1 l2 := by
  induction l1 generalizing l2 with
  | nil =>
    cases l2 with
    | nil => exact List.Forall₂.nil
    | cons u l2 => simp [coords] at hc
  | cons t l1 ih =>
    cases l2 with
    | nil => simp [coords] at hc
    | cons u l2 =>
      simp only [coords, List.map_cons, List.cons.injEq, Tile.key, key.mk.injEq] at hc
      refine List.Forall₂.cons ⟨hc.1.1, hc.1.2, ?_⟩
        (ih l2 (fun v hv => hn1 v (List.mem_cons_of_mem _ hv))
          (fun v hv => hn2 v (List.mem_cons_of_mem _ hv)) hc.2)
      rw [hn1 t (List.mem_cons_self _ _), hn2 u (List.mem_cons_self _ _)]

theorem step_eq_of_coords_eq (l1 l2 : List Tile)
    (hn1 : ∀ t ∈ l1, t.n = 0) (hn2 : ∀ t ∈ l2, t.n = 0) (hc : coords l1 = coords l2) :
    step l1 = step l2 := by
  unfold step crowding
  rw [foldl_popTile_congr l1 l2 [] (forall₂_of_coords_eq l1 l2 hn1 hn2 hc)]

/-! ## The entries of the table for tiles in range -/

/-- Folding `countNeighbour` over fresh tiles with distinct coordinates bumps exactly
the entries at those coordinates. -/
theorem mapGet_foldl_countNeighbour (ts : List Tile) (m : TileMap) (k : key)
    (hnd : (coords ts).Nodup) (hfresh : ∀ t ∈ ts, t = createTile t.x t.y) :
    mapGet (ts.foldl countNeighbour m) k =
      if k ∈ coords ts then some (bump (mapGet m k) (createTile k.x k.y)) else mapGet m k := by
  induction ts generalizing m with
  | nil => simp [coords]
  | cons t ts ih =>
    simp only [coords, List.map_cons, List.nodup_cons] at hnd
    have hfr : ∀ t ∈ ts, t = createTile t.x t.y := fun u hu => hfresh u (List.mem_cons_of_mem _ hu)
    have ht : t = createTile t.x t.y := hfresh t (List.mem_cons_self _ _)
    rw [List.foldl_cons, ih _ hnd.2 hfr, mapGet_countNeighbour]
    simp only [coords, List.map_cons, List.mem_cons]
    by_cases hk : t.key = k
    · subst hk
      have h1 : t.key ∉ List.map Tile.key ts := hnd.1
      simp only [h1, if_false, true_or, if_true]
      have : createTile t.key.x t.key.y = t := ht.symm
      rw [this]
    · have hk' : ¬ k = t.key := fun e => hk e.symm
      simp only [hk, hk', if_false, false_or]

theorem mapGet_popTile (m : TileMap) (tile : Tile) (h : tile.inRange) (k : key) :
    mapGet (popTile m tile) k = entryStep k (mapGet m k) tile := by
  rw [popTile_eq, mapGet_foldl_countNeighbour]
  · unfold entryStep
    simp only [mapGet_mapSet]
    by_cases hk : tile.key = k
    · subst hk
      simp
    · simp [hk]
  · exact nodup_coords_around tile h
  · exact fun t ht => fresh_of_mem_around tile t ht

theorem mapGet_foldl_popTile (l : List Tile) (hex : ∀ t ∈ l, t.inRange) (m : TileMap)
    (k : key) : mapGet (l.foldl popTile m) k = l.foldl (entryStep k) (mapGet m k) := by
  induction l generalizing m with
  | nil => rfl
  | cons t l ih =>
    rw [List.foldl_cons, ih (fun u hu => hex u (List.mem_cons_of_mem _ hu)),
      mapGet_popTile m t (hex t (List.mem_cons_self _ _)), List.foldl_cons]

theorem entryStep_ok (k : key) (o : Option Tile) (live : Prop) (h : Nat) (t : Tile)
    (hn : t.n = 0) (hok : EntryOk k o live h) :
    EntryOk k (entryStep k o t) (live ∨ t.key = k)
      (h + if k ∈ coords t.around then 1 else 0) := by
  unfold entryStep
  by_cases hk : t.key = k <;> by_cases ha : k ∈ coords t.around
  all_goals simp only [hk, ha, if_true, if_false, or_true, or_false, Nat.add_zero]
  all_goals cases o with
    | none =>
      obtain ⟨h1, h2⟩ := hok
      subst h2
      first
        | (subst hk; simp [EntryOk, markAlive, bump, incBy, hn, Tile.key, createTile])
        | simp [EntryOk, markAlive, bump, incBy, hn, Tile.key, createTile, h1]
    | some v =>
      obtain ⟨h1, h2, h3, h4, h5⟩ := hok
      first
        | (subst hk; simp [EntryOk, markAlive, bump, incBy, Tile.key, createTile, h1, h2, h3, h4, h5])
        | simp [EntryOk, markAlive, bump, incBy, Tile.key, createTile, h1, h2, h3, h4, h5]

theorem foldl_entryStep_ok (k : key) (l : List Tile) (o : Option Tile) (live : Prop) (h : Nat)
    (hn : ∀ t ∈ l, t.n = 0) (hok : EntryOk k o live h) :
    EntryOk k (l.foldl (entryStep k) o) (live ∨ k ∈ coords l) (h + hits l k) := by
  induction l generalizing o live h with
  | nil => simpa [coords, hits] using hok
  | cons t l ih =>
    have h1 := entryStep_ok k o live h t (hn t (List.mem_cons_self _ _)) hok
    have h2 := ih _ _ _ (fun u hu => hn u (List.mem_cons_of_mem _ hu)) h1
    rw [List.foldl_cons]
    have e1 : ((live ∨ t.key = k) ∨ k ∈ coords l) ↔ (live ∨ k ∈ coords (t :: l)) := by
      simp only [coords, List.map_cons, List.mem_cons]
      constructor
      · rintro ((a | a) | a)
        · exact Or.inl a
        · exact Or.inr (Or.inl a.symm)
        · exact Or.inr (Or.inr a)
      · rintro (a | a | a)
        · exact Or.inl (Or.inl a)
        · exact Or.inl (Or.inr a.symm)
        · exact Or.inr a
    have e2 : (h + if k ∈ coords t.around then 1 else 0) + hits l k = h + hits (t :: l) k := by
      simp only [hits, List.countP_cons, decide_eq_true_eq]
      omega
    rw [← e2]
    rw [propext e1] at h2
    exact h2

/-- The entry of every key in the table built from tiles in range that carry counter 0. -/
theorem crowding_entry (l : List Tile) (hn : ∀ t ∈ l, t.n = 0) (hex : ∀ t ∈ l, t.inRange)
    (k : key) : EntryOk k (mapGet (crowding l) k) (k ∈ coords l) (hits l k) := by
  have h := foldl_entryStep_ok k l none False 0 hn (by simp [EntryOk])
  unfold crowding
  rw [mapGet_foldl_popTile l hex]
  simpa [mapGet] using h

theorem hits_eq_liveNeighbours (l : List Tile) (hex : ∀ t ∈ l, t.inRange) (k : key) :
    hits l k = liveNeighbours l k := by
  unfold hits liveNeighbours
  apply List.countP_congr
  intro t ht
  simp only [decide_eq_true_eq]
  exact mem_coords_around_iff t (hex t ht) k

theorem liveNeighbours_le (l : List Tile) (hnd : (coords l).Nodup) (c : key) :
    liveNeighbours l c ≤ 8 := by
  unfold liveNeighbours
  rw [List.countP_eq_length_filter]
  have hsub : (l.filter fun t => decide (t.key ∈ moore c)).Sublist l := List.filter_sublist l
  have hnd2 : ((l.filter fun t => decide (t.key ∈ moore c)).map Tile.key).Nodup :=
    List.Nodup.sublist (hsub.map Tile.key) hnd
  have hss : (l.filter fun t => decide (t.key ∈ moore c)).map Tile.key ⊆ moore c := by
    intro a ha
    simp only [List.mem_map, List.mem_filter, decide_eq_true_eq] at ha
    obtain ⟨t, ⟨_, h2⟩, rfl⟩ := ha
    exact h2
  have := (List.subperm_of_subset hnd2 hss).length_le
  simpa [moore] using this

theorem wrapInt_of_small (i : Int) (h0 : 0 ≤ i) (h1 : i < 2 ^ 63) : wrapInt i = i := by
  unfold wrapInt
  have : (i + 2 ^ 63) % 2 ^ 64 = i + 2 ^ 63 :=
    Int.emod_eq_of_lt (by omega) (by norm_num at h1 ⊢; omega)
  omega

theorem incBy_of_small (h : Nat) (hh : (h : Int) < 2 ^ 63) : incBy h 0 = h := by
  induction h with
  | zero => rfl
  | succ h ih =>
    have ih2 := ih (by push_cast at hh; omega)
    simp only [incBy, ih2]
    rw [wrapInt_of_small _ (by omega) (by push_cast at hh ⊢; omega)]
    push_cast
    rfl

/-- The rule of `step` on a live set of tiles in range that carry counter 0, in terms of
the counter the table holds for the coordinate. -/
theorem mem_coords_step_counter (l : List Tile) (hn : ∀ t ∈ l, t.n = 0)
    (hex : ∀ t ∈ l, t.inRange) (c : key) :
    c ∈ coords (step l) ↔
      (c ∈ coords l ∧ 2 ≤ incBy (liveNeighbours l c) 0 ∧ incBy (liveNeighbours l c) 0 < 4) ∨
        (c ∉ coords l ∧ incBy (liveNeighbours l c) 0 = 3) := by
  rw [mem_coords_step_iff l c]
  have hok := crowding_entry l hn hex c
  rw [hits_eq_liveNeighbours l hex] at hok
  cases hg : mapGet (crowding l) c with
  | none =>
    rw [hg] at hok
    obtain ⟨h1, h2⟩ := hok
    simp [h1, h2, incBy]
  | some v =>
    rw [hg] at hok
    obtain ⟨-, -, ha, hcnt, -⟩ := hok
    simp only [Option.some.injEq, exists_eq_left', survives_isSome_iff, hcnt]
    by_cases hl : c ∈ coords l
    · have hat : v.alive = true := ha.2 hl
      simp [hat, hl]
    · have hat : v.alive = false := by
        cases hv : v.alive
        · rfl
        · exact absurd (ha.1 hv) hl
      simp [hat, hl]

/-- The rule of `step` on a live set in range with distinct coordinates and counters 0. -/
theorem mem_coords_step (l : List Tile) (hnd : (coords l).Nodup) (hn : ∀ t ∈ l, t.n = 0)
    (hex : ∀ t ∈ l, t.inRange) (c : key) :
    c ∈ coords (step l) ↔
      (c ∈ coords l ∧ (liveNeighbours l c = 2 ∨ liveNeighbours l c = 3)) ∨
        (c ∉ coords l ∧ liveNeighbours l c = 3) := by
  have hle := liveNeighbours_le l hnd c
  rw [mem_coords_step_counter l hn hex c, incBy_of_small _ (by omega)]
  constructor
  · rintro (⟨h1, h2, h3⟩ | ⟨h1, h2⟩)
    · exact Or.inl ⟨h1, by omega⟩
    · exact Or.inr ⟨h1, by omega⟩
  · rintro (⟨h1, h2⟩ | ⟨h1, h2⟩)
    · exact Or.inl ⟨h1, by omega, by omega⟩
    · exact Or.inr ⟨h1, by omega⟩

theorem liveNeighbours_eq_countP_coords (l : List Tile) (c : key) :
    liveNeighbours l c = (coords l).countP fun k => decide (k ∈ moore c) := by
  unfold liveNeighbours coords
  rw [List.countP_map]
  rfl

theorem liveNeighbours_congr (l1 l2 : List Tile) (h : (coords l1).Perm (coords l2)) (c : key) :
    liveNeighbours l1 c = liveNeighbours l2 c := by
  rw [liveNeighbours_eq_countP_coords, liveNeighbours_eq_countP_coords]
  exact h.countP_eq _

/-- Two live sets in range with counters 0 that hold the same coordinates with the same
multiplicities have results with the same coordinates. -/
theorem step_coords_congr (l1 l2 : List Tile)
    (hn1 : ∀ t ∈ l1, t.n = 0) (hn2 : ∀ t ∈ l2, t.n = 0)
    (hex1 : ∀ t ∈ l1, t.inRange) (hex2 : ∀ t ∈ l2, t.inRange)
    (hp : (coords l1).Perm (coords l2)) (c : key) :
    c ∈ coords (step l1) ↔ c ∈ coords (step l2) := by
  rw [mem_coords_step_counter l1 hn1 hex1, mem_coords_step_counter l2 hn2 hex2, hp.mem_iff,
    liveNeighbours_congr l1 l2 hp c]

theorem step_coords_perm (l1 l2 : List Tile)
    (hn1 : ∀ t ∈ l1, t.n = 0) (hn2 : ∀ t ∈ l2, t.n = 0)
    (hex1 : ∀ t ∈ l1, t.inRange) (hex2 : ∀ t ∈ l2, t.inRange)
    (hp : (coords l1).Perm (coords l2)) :
    (coords (step l1)).Perm (coords (step l2)) :=
  (List.perm_ext_iff_of_nodup (nodup_coords_step_all l1) (nodup_coords_step_all l2)).2
    (step_coords_congr l1 l2 hn1 hn2 hex1 hex2 hp)

/-- A tile is in range when its coordinate is that of a tile in range. -/
theorem inRange_of_key_eq (t u : Tile) (hu : u.inRange) (h : t.key = u.key) : t.inRange := by
  simp only [Tile.key, key.mk.injEq] at h
  obtain ⟨⟨a, ha, hx⟩, ⟨b, hb, hy⟩⟩ := hu
  exact ⟨⟨a, ha, by rw [h.1, hx]⟩, ⟨b, hb, by rw [h.2, hy]⟩⟩

theorem inRange_of_perm (l1 l2 : List Tile) (hp : (coords l1).Perm (coords l2))
    (hex2 : ∀ t ∈ l2, t.inRange) : ∀ t ∈ l1, t.inRange := by
  intro t ht
  have h1 : t.key ∈ coords l2 := hp.mem_iff.1 (List.mem_map_of_mem Tile.key ht)
  simp only [coords, List.mem_map] at h1
  obtain ⟨u, hu, hk⟩ := h1
  exact inRange_of_key_eq t u (hex2 u hu) hk.symm

theorem inRange_of_small (x y : ℚ) (n : Int) (al : Bool) (a b : Int)
    (ha : |a| < 2 ^ 53) (hb : |b| < 2 ^ 53) (hx : x = (a : ℚ) * size) (hy : y = (b : ℚ) * size) :
    (Tile.mk x y n al).inRange :=
  ⟨⟨a, ha, hx⟩, ⟨b, hb, hy⟩⟩

/-! ## Translation -/

theorem coords_map_shiftTile (a b : Int) (l : List Tile) :
    coords (l.map (shiftTile a b)) = (coords l).map (shiftKey a b) := by
  simp only [coords, List.map_map]
  rfl

theorem mem_map_shiftKey (a b : Int) (l : List key) (c : key) :
    c ∈ l.map (shiftKey a b) ↔ shiftKey (-a) (-b) c ∈ l := by
  simp only [List.mem_map]
  constructor
  · rintro ⟨k, hk, rfl⟩
    have e : shiftKey (-a) (-b) (shiftKey a b k) = k := by
      obtain ⟨kx, ky⟩ := k
      simp only [shiftKey, key.mk.injEq]
      push_cast
      constructor <;> ring
    rw [e]
    exact hk
  · intro h
    refine ⟨_, h, ?_⟩
    obtain ⟨cx, cy⟩ := c
    simp only [shiftKey, key.mk.injEq]
    push_cast
    constructor <;> ring

theorem mem_moore_shiftKey (a b : Int) (k c : key) :
    shiftKey a b k ∈ moore c ↔ k ∈ moore (shiftKey (-a) (-b) c) := by
  obtain ⟨kx, ky⟩ := k
  obtain ⟨cx, cy⟩ := c
  simp only [moore, shiftKey, List.map, List.mem_cons, List.mem_singleton, List.not_mem_nil,
    or_false, key.mk.injEq]
  push_cast
  repeat' apply or_congr
  all_goals
    apply and_congr <;> constructor <;> intro h <;> linarith

theorem liveNeighbours_shift (a b : Int) (l : List Tile) (c : key) :
    liveNeighbours (l.map (shiftTile a b)) c = liveNeighbours l (shiftKey (-a) (-b) c) := by
  unfold liveNeighbours
  rw [List.countP_map]
  congr 1
  funext t
  have h := mem_moore_shiftKey a b t.key c
  have e : (shiftTile a b t).key = shiftKey a b t.key := rfl
  simp only [Function.comp, e, h]

theorem mem_coords_step_shift (a b : Int) (l : List Tile) (hn : ∀ t ∈ l, t.n = 0)
    (hex : ∀ t ∈ l, t.inRange) (hex' : ∀ t ∈ l.map (shiftTile a b), t.inRange) (c : key) :
    c ∈ coords (step (l.map (shiftTile a b))) ↔ c ∈ (coords (step l)).map (shiftKey a b) := by
  have hn' : ∀ t ∈ l.map (shiftTile a b), t.n = 0 := by
    intro t ht
    simp only [List.mem_map] at ht
    obtain ⟨u, hu, rfl⟩ := ht
    exact hn u hu
  rw [mem_map_shiftKey, mem_coords_step_counter _ hn' hex', mem_coords_step_counter _ hn hex,
    coords_map_shiftTile, mem_map_shiftKey, liveNeighbours_shift]

/-! ## The grid anchor -/

/-- When the quotient `i / size` is a float64 value, `round` computes the exact anchor. -/
theorem round_exact (v : ℚ) (h : fdiv v size = v / size) :
    round v = ((Int.floor (v / size) : Int) : ℚ) * size := by
  have hw : toFloat64 (v / size) = v / size := h
  unfold round
  rw [h]
  unfold fmul size
  exact toFloat64_mul16 _ (toFloat64_floor _ (by simpa [size] using hw))

theorem fdiv_anchor (m : Int) (h : toFloat64 (m : ℚ) = (m : ℚ)) :
    fdiv ((m : ℚ) * size) size = (m : ℚ) * size / size := by
  unfold fdiv
  have e : (m : ℚ) * size / size = (m : ℚ) := by
    unfold size
    ring
  rw [e, h]

/-! ## Properties of the simulation core -/

theorem inRange_blinker :
    ∀ t ∈ ([⟨0, 0, 0, true⟩, ⟨16, 0, 0, true⟩, ⟨32, 0, 0, true⟩] : List Tile), t.inRange := by
  intro t ht
  simp only [List.mem_cons, List.mem_singleton, List.not_mem_nil, or_false] at ht
  rcases ht with rfl | rfl | rfl
  · exact inRange_of_small _ _ _ _ 0 0 (by norm_num) (by norm_num) (by norm_num [size])
      (by norm_num [size])
  · exact inRange_of_small _ _ _ _ 1 0 (by norm_num) (by norm_num) (by norm_num [size])
      (by norm_num [size])
  · exact inRange_of_small _ _ _ _ 2 0 (by norm_num) (by norm_num) (by norm_num [size])
      (by norm_num [size])

/-- C1, as stated, fails: in the row of three live cells at `x = 2^57 - 32, 2^57 - 16, 2^57`
the live cell `(2^57, 0)` has one live neighbour and is in the result of `step`, because
`around` at `(2^57, 0)` rounds `x + 16` back to `x` and counts the tile for itself. -/
theorem step_live_cell_rule_counterexample :
    (coords [⟨2 ^ 57 - 32, 0, 0, true⟩, ⟨2 ^ 57 - 16, 0, 0, true⟩, ⟨2 ^ 57, 0, 0, true⟩]).Nodup ∧
    (⟨2 ^ 57, 0⟩ : key) ∈
      coords [⟨2 ^ 57 - 32, 0, 0, true⟩, ⟨2 ^ 57 - 16, 0, 0, true⟩, ⟨2 ^ 57, 0, 0, true⟩] ∧
    liveNeighbours [⟨2 ^ 57 - 32, 0, 0, true⟩, ⟨2 ^ 57 - 16, 0, 0, true⟩, ⟨2 ^ 57, 0, 0, true⟩]
      ⟨2 ^ 57, 0⟩ = 1 ∧
    (⟨2 ^ 57, 0⟩ : key) ∈ coords (step
      [⟨2 ^ 57 - 32, 0, 0, true⟩, ⟨2 ^ 57 - 16, 0, 0, true⟩, ⟨2 ^ 57, 0, 0, true⟩]) := by
  decide!

/-- C1, amended: for a live set with pairwise distinct coordinates whose tiles carry
counter 0 and lie in range (coordinates integer multiples of `size` of magnitude below
`2^57`), a live coordinate is in the result of `step` exactly when 2 or 3 members of the
set lie in its Moore neighbourhood. -/
theorem step_live_cell_rule (S : List Tile) (hnd : (coords S).Nodup)
    (hn : ∀ t ∈ S, t.n = 0) (hex : ∀ t ∈ S, t.inRange) (c : key) (hc : c ∈ coords S) :
    c ∈ coords (step S) ↔ (liveNeighbours S c = 2 ∨ liveNeighbours S c = 3) := by
  rw [mem_coords_step S hnd hn hex c]
  simp [hc]

theorem step_live_cell_rule_witness :
    (coords [⟨0, 0, 0, true⟩, ⟨16, 0, 0, true⟩, ⟨32, 0, 0, true⟩]).Nodup ∧
    ((⟨16, 0⟩ : key) ∈ coords (step [⟨0, 0, 0, true⟩, ⟨16, 0, 0, true⟩, ⟨32, 0, 0, true⟩]) ↔
      (liveNeighbours [⟨0, 0, 0, true⟩, ⟨16, 0, 0, true⟩, ⟨32, 0, 0, true⟩] ⟨16, 0⟩ = 2 ∨
        liveNeighbours [⟨0, 0, 0, true⟩, ⟨16, 0, 0, true⟩, ⟨32, 0, 0, true⟩] ⟨16, 0⟩ = 3)) :=
  ⟨by decide!,
    step_live_cell_rule _ (by decide!) (by decide!) inRange_blinker _ (by decide!)⟩

/-- C2, as stated, fails: for the same row of three live cells the coordinate `(2^57, 16)`
is outside the set, has two live neighbours and is in the result of `step`, because
`around` at `(2^57, 0)` sends that coordinate twice. -/
theorem step_dead_cell_rule_counterexample :
    (coords [⟨2 ^ 57 - 32, 0, 0, true⟩, ⟨2 ^ 57 - 16, 0, 0, true⟩, ⟨2 ^ 57, 0, 0, true⟩]).Nodup ∧
    (⟨2 ^ 57, 16⟩ : key) ∉
      coords [⟨2 ^ 57 - 32, 0, 0, true⟩, ⟨2 ^ 57 - 16, 0, 0, true⟩, ⟨2 ^ 57, 0, 0, true⟩] ∧
    liveNeighbours [⟨2 ^ 57 - 32, 0, 0, true⟩, ⟨2 ^ 57 - 16, 0, 0, true⟩, ⟨2 ^ 57, 0, 0, true⟩]
      ⟨2 ^ 57, 16⟩ = 2 ∧
    (⟨2 ^ 57, 16⟩ : key) ∈ coords (step
      [⟨2 ^ 57 - 32, 0, 0, true⟩, ⟨2 ^ 57 - 16, 0, 0, true⟩, ⟨2 ^ 57, 0, 0, true⟩]) := by
  decide!

/-- C2, amended: for a live set with pairwise distinct coordinates whose tiles carry
counter 0 and lie in range, a coordinate outside the set is in the result of `step`
exactly when 3 members of the set lie in its Moore neighbourhood. -/
theorem step_dead_cell_rule (S : List Tile) (hnd : (coords S).Nodup)
    (hn : ∀ t ∈ S, t.n = 0) (hex : ∀ t ∈ S, t.inRange) (c : key) (hc : c ∉ coords S) :
    c ∈ coords (step S) ↔ liveNeighbours S c = 3 := by
  rw [mem_coords_step S hnd hn hex c]
  simp [hc]

theorem step_dead_cell_rule_witness :
    (⟨16, 16⟩ : key) ∉ coords [⟨0, 0, 0, true⟩, ⟨16, 0, 0, true⟩, ⟨32, 0, 0, true⟩] ∧
    ((⟨16, 16⟩ : key) ∈ coords (step [⟨0, 0, 0, true⟩, ⟨16, 0, 0, true⟩, ⟨32, 0, 0, true⟩]) ↔
      liveNeighbours [⟨0, 0, 0, true⟩, ⟨16, 0, 0, true⟩, ⟨32, 0, 0, true⟩] ⟨16, 16⟩ = 3) :=
  ⟨by decide!,
    step_dead_cell_rule _ (by decide!) (by decide!) inRange_blinker _ (by decide!)⟩

/-- C3: the code at the failing input. Left clicks at `(5,5), (20,3)` and at
`(5,5), (5,5), (20,3)` leave live sets that hold the same set of coordinates,
`(0,0)` and `(16,0)`; `step` gives no cell for the first and 5 cells for the second. -/
theorem step_differs_on_equal_coordinate_sets :
    liveTiles (click (click World.init 5 5) 20 3) =
        [⟨0, 0, 0, true⟩, ⟨16, 0, 0, true⟩] ∧
      liveTiles (click (click (click World.init 5 5) 5 5) 20 3) =
        [⟨0, 0, 0, true⟩, ⟨0, 0, 0, true⟩, ⟨16, 0, 0, true⟩] ∧
      coords [⟨0, 0, 0, true⟩, ⟨16, 0, 0, true⟩] ⊆
        coords [⟨0, 0, 0, true⟩, ⟨0, 0, 0, true⟩, ⟨16, 0, 0, true⟩] ∧
      coords [⟨0, 0, 0, true⟩, ⟨0, 0, 0, true⟩, ⟨16, 0, 0, true⟩] ⊆
        coords [⟨0, 0, 0, true⟩, ⟨16, 0, 0, true⟩] ∧
      coords (step (liveTiles (click (click World.init 5 5) 20 3))) = [] ∧
      coords (step (liveTiles (click (click (click World.init 5 5) 5 5) 20 3))) =
        [⟨0, -16⟩, ⟨0, 16⟩, ⟨16, 0⟩, ⟨16, 16⟩, ⟨16, -16⟩] := by
  decide!

/-- On live sets in range that hold every coordinate as often and carry counter 0, the
result of `step` holds the same coordinates whatever the pop order. -/
theorem step_order_independent (S₁ S₂ : List Tile)
    (hn₁ : ∀ t ∈ S₁, t.n = 0) (hn₂ : ∀ t ∈ S₂, t.n = 0)
    (hex₁ : ∀ t ∈ S₁, t.inRange) (hex₂ : ∀ t ∈ S₂, t.inRange)
    (hsame : (coords S₁).Perm (coords S₂)) :
    ∀ c, c ∈ coords (step S₁) ↔ c ∈ coords (step S₂) :=
  fun c => step_coords_congr S₁ S₂ hn₁ hn₂ hex₁ hex₂ hsame c

/-- C4, as stated, fails: at `(2^57, 0)` the tiles `around` sends include one at the
coordinate of the tile itself, and their coordinates are not pairwise distinct. -/
theorem around_counterexample :
    (createTile (2 ^ 57) 0).key ∈ coords (createTile (2 ^ 57) 0).around ∧
      ¬ (coords (createTile (2 ^ 57) 0).around).Nodup := by
  decide!

/-- C4, amended: for every tile in range (coordinates integer multiples of `size` of
magnitude below `2^57`), inside the window or not, `around` sends exactly 8 tiles, with
pairwise distinct coordinates, none at the coordinate of the tile itself, and their
coordinates are exactly the cells `(x + dx*size, y + dy*size)` for `(dx, dy)` in
`{-1,0,1} × {-1,0,1}` other than `(0,0)`. -/
theorem around_moore_neighbourhood (t : Tile) (h : t.inRange) :
    t.around.length = 8 ∧ (coords t.around).Nodup ∧ t.key ∉ coords t.around ∧
      ∀ c : key, c ∈ coords t.around ↔
        ∃ dx dy : Int, (dx = -1 ∨ dx = 0 ∨ dx = 1) ∧ (dy = -1 ∨ dy = 0 ∨ dy = 1) ∧
          ¬ (dx = 0 ∧ dy = 0) ∧ c = ⟨t.x + (dx : ℚ) * size, t.y + (dy : ℚ) * size⟩ :=
  ⟨length_around t, nodup_coords_around t h, key_not_mem_coords_around t h,
    mem_coords_around_offsets t h⟩

theorem around_moore_neighbourhood_witness :
    (createTile (-32) 1600).around.length = 8 ∧
      (coords (createTile (-32) 1600).around).Nodup ∧
      (createTile (-32) 1600).key ∉ coords (createTile (-32) 1600).around ∧
      ∀ c : key, c ∈ coords (createTile (-32) 1600).around ↔
        ∃ dx dy : Int, (dx = -1 ∨ dx = 0 ∨ dx = 1) ∧ (dy = -1 ∨ dy = 0 ∨ dy = 1) ∧
          ¬ (dx = 0 ∧ dy = 0) ∧
            c = ⟨(createTile (-32) 1600).x + (dx : ℚ) * size,
              (createTile (-32) 1600).y + (dy : ℚ) * size⟩ :=
  around_moore_neighbourhood (createTile (-32) 1600)
    (inRange_of_small _ _ _ _ (-2) 100 (by norm_num) (by norm_num) (by norm_num [size])
      (by norm_num [size]))

theorem key_mem_coords_around_of (u : Tile) (d : delta) (hd : d ∈ transformations) :
    (createTile (fsub u.x (fmul d.dx size)) (fsub u.y (fmul d.dy size))).key ∈
      coords u.around := by
  rw [around_eq_map]
  simp only [coords, List.map_map, List.mem_map]
  exact ⟨d, hd, rfl⟩

/-- Coming back from an exact neighbour of a float64 coordinate is exact. -/
theorem fsub_back (x : ℚ) (a : Int) (ha : |a| < 2 ^ 53) (hx : x = (a : ℚ) * size) :
    fsub (x + (0 : Int) * size) 0 = x ∧ fsub (x + (1 : Int) * size) 16 = x ∧
      fsub (x + (-1 : Int) * size) (-16) = x := by
  have h : toFloat64 x = x := by
    rw [hx]
    exact toFloat64_mul_size a (le_of_lt ha)
  unfold fsub size
  refine ⟨?_, ?_, ?_⟩
  · have e : x + ((0 : Int) : ℚ) * 16 - 0 = x := by
      push_cast
      ring
    rw [e, h]
  · have e : x + ((1 : Int) : ℚ) * 16 - 16 = x := by
      push_cast
      ring
    rw [e, h]
  · have e : x + ((-1 : Int) : ℚ) * 16 - -16 = x := by
      push_cast
      ring
    rw [e, h]

theorem around_symm_of_inRange (t u : Tile) (ht : t.inRange) (h : u.key ∈ coords t.around) :
    t.key ∈ coords u.around := by
  obtain ⟨dx, dy, hdx, hdy, hne, hk⟩ := (mem_coords_around_offsets t ht u.key).1 h
  simp only [Tile.key, key.mk.injEq] at hk
  obtain ⟨hux, huy⟩ := hk
  obtain ⟨⟨a, ha, hx⟩, ⟨b, hb, hy⟩⟩ := ht
  obtain ⟨x0, x1, x2⟩ := fsub_back t.x a ha hx
  obtain ⟨y0, y1, y2⟩ := fsub_back t.y b hb hy
  obtain ⟨m0, m1, m2⟩ := fmul_size
  have key : ∀ d : delta, d ∈ transformations →
      fsub u.x (fmul d.dx size) = t.x → fsub u.y (fmul d.dy size) = t.y →
      t.key ∈ coords u.around := by
    intro d hd e1 e2
    have := key_mem_coords_around_of u d hd
    simpa only [Tile.key, createTile, e1, e2] using this
  rcases hdx with rfl | rfl | rfl <;> rcases hdy with rfl | rfl | rfl
  · exact key ⟨-1, -1⟩ (by simp [transformations]) (by rw [m2, hux, x2]) (by rw [m2, huy, y2])
  · exact key ⟨-1, 0⟩ (by simp [transformations]) (by rw [m2, hux, x2]) (by rw [m0, huy, y0])
  · exact key ⟨-1, 1⟩ (by simp [transformations]) (by rw [m2, hux, x2]) (by rw [m1, huy, y1])
  · exact key ⟨0, -1⟩ (by simp [transformations]) (by rw [m0, hux, x0]) (by rw [m2, huy, y2])
  · exact absurd ⟨rfl, rfl⟩ hne
  · exact key ⟨0, 1⟩ (by simp [transformations]) (by rw [m0, hux, x0]) (by rw [m1, huy, y1])
  · exact key ⟨1, -1⟩ (by simp [transformations]) (by rw [m1, hux, x1]) (by rw [m2, huy, y2])
  · exact key ⟨1, 0⟩ (by simp [transformations]) (by rw [m1, hux, x1]) (by rw [m0, huy, y0])
  · exact key ⟨1, 1⟩ (by simp [transformations]) (by rw [m1, hux, x1]) (by rw [m1, huy, y1])

/-- C5, as stated, fails: `around` at `(2^57 + 32, 0)` sends a tile at `(2^57, 0)`, and
`around` at `(2^57, 0)` sends none at `(2^57 + 32, 0)`. -/
theorem around_symmetric_counterexample :
    (createTile (2 ^ 57) 0).key ∈ coords (createTile (2 ^ 57 + 32) 0).around ∧
      (createTile (2 ^ 57 + 32) 0).key ∉ coords (createTile (2 ^ 57) 0).around := by
  decide!

/-- C5, amended: for every tile in range (coordinates integer multiples of `size` of
magnitude below `2^57`), when `around` on it sends a tile at `n`, `around` on a tile at
`n` sends one at its coordinate. -/
theorem around_symmetric (t u : Tile) (ht : t.inRange) (h : u.key ∈ coords t.around) :
    t.key ∈ coords u.around :=
  around_symm_of_inRange t u ht h

theorem around_symmetric_witness :
    (createTile 16 (-16)).key ∈ coords (createTile 0 0).around ∧
      (createTile 0 0).key ∈ coords (createTile 16 (-16)).around :=
  ⟨by decide!, around_symmetric (createTile 0 0) (createTile 16 (-16))
    (inRange_of_small _ _ _ _ 0 0 (by norm_num) (by norm_num) (by norm_num [size])
      (by norm_num [size])) (by decide!)⟩

/-- C6: the code at the failing input. Two left clicks in the same cell, from the empty
set, leave two tiles at coordinate `(0, 0)` in `cells`; one click leaves one. -/
theorem click_twice_holds_two_tiles :
    coords (liveTiles (click World.init 5 5)) = [⟨0, 0⟩] ∧
      coords (liveTiles (click (click World.init 5 5) 5 5)) = [⟨0, 0⟩, ⟨0, 0⟩] := by
  decide!

theorem inRange_of_key_mem (t : Tile) (ks : List key)
    (hks : ∀ k ∈ ks, (Tile.mk k.x k.y 0 true).inRange) (h : t.key ∈ ks) : t.inRange :=
  inRange_of_key_eq t _ (hks _ h) rfl

theorem inRange_blinker_keys :
    ∀ k ∈ ([⟨0, 0⟩, ⟨size, 0⟩, ⟨2 * size, 0⟩] : List key), (Tile.mk k.x k.y 0 true).inRange := by
  intro k hk
  simp only [List.mem_cons, List.mem_singleton, List.not_mem_nil, or_false] at hk
  rcases hk with rfl | rfl | rfl
  · exact inRange_of_small _ _ _ _ 0 0 (by norm_num) (by norm_num) (by norm_num) (by norm_num)
  · exact inRange_of_small _ _ _ _ 1 0 (by norm_num) (by norm_num) (by norm_num) (by norm_num)
  · exact inRange_of_small _ _ _ _ 2 0 (by norm_num) (by norm_num) (by norm_num) (by norm_num)

theorem inRange_column_keys :
    ∀ k ∈ ([⟨size, -size⟩, ⟨size, 0⟩, ⟨size, size⟩] : List key),
      (Tile.mk k.x k.y 0 true).inRange := by
  intro k hk
  simp only [List.mem_cons, List.mem_singleton, List.not_mem_nil, or_false] at hk
  rcases hk with rfl | rfl | rfl
  · exact inRange_of_small _ _ _ _ 1 (-1) (by norm_num) (by norm_num) (by norm_num)
      (by norm_num)
  · exact inRange_of_small _ _ _ _ 1 0 (by norm_num) (by norm_num) (by norm_num) (by norm_num)
  · exact inRange_of_small _ _ _ _ 1 1 (by norm_num) (by norm_num) (by norm_num) (by norm_num)

theorem inRange_block_keys :
    ∀ k ∈ ([⟨0, 0⟩, ⟨0, size⟩, ⟨size, 0⟩, ⟨size, size⟩] : List key),
      (Tile.mk k.x k.y 0 true).inRange := by
  intro k hk
  simp only [List.mem_cons, List.mem_singleton, List.not_mem_nil, or_false] at hk
  rcases hk with rfl | rfl | rfl | rfl
  · exact inRange_of_small _ _ _ _ 0 0 (by norm_num) (by norm_num) (by norm_num) (by norm_num)
  · exact inRange_of_small _ _ _ _ 0 1 (by norm_num) (by norm_num) (by norm_num) (by norm_num)
  · exact inRange_of_small _ _ _ _ 1 0 (by norm_num) (by norm_num) (by norm_num) (by norm_num)
  · exact inRange_of_small _ _ _ _ 1 1 (by norm_num) (by norm_num) (by norm_num) (by norm_num)

theorem inRange_of_coords_perm (S : List Tile) (ks : List key)
    (hks : ∀ k ∈ ks, (Tile.mk k.x k.y 0 true).inRange) (hS : (coords S).Perm ks) :
    ∀ t ∈ S, t.inRange :=
  fun t ht => inRange_of_key_mem t ks hks (hS.mem_iff.1 (List.mem_map_of_mem Tile.key ht))

/-- C7: the blinker has period 2. For every live set with counters 0 whose coordinates
are `(0,0), (s,0), (2s,0)` (`s = size`), in any pop order, the result of `step` has
exactly the coordinates `(s,-s), (s,0), (s,s)`, and `step` applied to that result, in any
pop order, has exactly the coordinates `(0,0), (s,0), (2s,0)`. -/
theorem blinker_period_two (S : List Tile) (hn : ∀ t ∈ S, t.n = 0)
    (hS : (coords S).Perm [⟨0, 0⟩, ⟨size, 0⟩, ⟨2 * size, 0⟩]) :
    (coords (step S)).Perm [⟨size, -size⟩, ⟨size, 0⟩, ⟨size, size⟩] ∧
      ∀ S' : List Tile, S'.Perm (step S) →
        (coords (step S')).Perm [⟨0, 0⟩, ⟨size, 0⟩, ⟨2 * size, 0⟩] := by
  have h1 : (coords (step S)).Perm [⟨size, -size⟩, ⟨size, 0⟩, ⟨size, size⟩] := by
    have hp := step_coords_perm S [⟨0, 0, 0, true⟩, ⟨size, 0, 0, true⟩, ⟨2 * size, 0, 0, true⟩]
      hn (by decide!) (inRange_of_coords_perm S _ inRange_blinker_keys hS)
      (inRange_of_coords_perm _ _ inRange_blinker_keys (List.Perm.refl _)) hS
    exact hp.trans (by decide!)
  refine ⟨h1, ?_⟩
  intro S' hS'
  have hn' : ∀ t ∈ S', t.n = 0 := fun t ht => n_zero_of_mem_step S t (hS'.mem_iff.1 ht)
  have hc : (coords S').Perm [⟨size, -size⟩, ⟨size, 0⟩, ⟨size, size⟩] :=
    (hS'.map Tile.key).trans h1
  have hp := step_coords_perm S'
    [⟨size, -size, 0, true⟩, ⟨size, 0, 0, true⟩, ⟨size, size, 0, true⟩]
    hn' (by decide!) (inRange_of_coords_perm S' _ inRange_column_keys hc)
    (inRange_of_coords_perm _ _ inRange_column_keys (List.Perm.refl _)) hc
  exact hp.trans (by decide!)

theorem blinker_period_two_witness :
    (coords (step [⟨0, 0, 0, true⟩, ⟨size, 0, 0, true⟩, ⟨2 * size, 0, 0, true⟩])).Perm
        [⟨size, -size⟩, ⟨size, 0⟩, ⟨size, size⟩] ∧
      (coords (step (step [⟨0, 0, 0, true⟩, ⟨size, 0, 0, true⟩, ⟨2 * size, 0, 0, true⟩]))).Perm
        [⟨0, 0⟩, ⟨size, 0⟩, ⟨2 * size, 0⟩] :=
  ⟨(blinker_period_two [⟨0, 0, 0, true⟩, ⟨size, 0, 0, true⟩, ⟨2 * size, 0, 0, true⟩]
      (by decide!) (List.Perm.refl _)).1,
    (blinker_period_two [⟨0, 0, 0, true⟩, ⟨size, 0, 0, true⟩, ⟨2 * size, 0, 0, true⟩]
      (by decide!) (List.Perm.refl _)).2 _ (List.Perm.refl _)⟩

/-- C8: the 2x2 block is a still life. For every live set `S` with counters 0 whose
coordinates are `(0,0), (0,s), (s,0), (s,s)` (`s = size`), in any pop order, the result
of `step` has exactly the coordinates of `S`. -/
theorem block_still_life (S : List Tile) (hn : ∀ t ∈ S, t.n = 0)
    (hS : (coords S).Perm [⟨0, 0⟩, ⟨0, size⟩, ⟨size, 0⟩, ⟨size, size⟩]) :
    (coords (step S)).Perm (coords S) := by
  have hp := step_coords_perm S
    [⟨0, 0, 0, true⟩, ⟨0, size, 0, true⟩, ⟨size, 0, 0, true⟩, ⟨size, size, 0, true⟩]
    hn (by decide!) (inRange_of_coords_perm S _ inRange_block_keys hS)
    (inRange_of_coords_perm _ _ inRange_block_keys (List.Perm.refl _)) hS
  have h2 : (coords (step
      [⟨0, 0, 0, true⟩, ⟨0, size, 0, true⟩, ⟨size, 0, 0, true⟩, ⟨size, size, 0, true⟩])).Perm
      [⟨0, 0⟩, ⟨0, size⟩, ⟨size, 0⟩, ⟨size, size⟩] := by decide!
  exact (hp.trans h2).trans hS.symm

theorem block_still_life_witness :
    (coords (step
      [⟨0, 0, 0, true⟩, ⟨0, size, 0, true⟩, ⟨size, 0, 0, true⟩, ⟨size, size, 0, true⟩])).Perm
      (coords
        [⟨0, 0, 0, true⟩, ⟨0, size, 0, true⟩, ⟨size, 0, 0, true⟩, ⟨size, size, 0, true⟩]) :=
  block_still_life _ (by decide!) (List.Perm.refl _)

/-- C9: `step` applied to the empty live set yields the empty live set. -/
theorem step_empty : step [] = [] := rfl

/-- C10, as stated, fails: at the least negative float64, `v = -2^-1074`, the division
`v / size` underflows to `-0`, so `round v = 0`, which is above `v` and is not
`floor (v / size) * size = -16`. -/
theorem round_counterexample :
    round (-1 / 2 ^ 1074) = 0 ∧ ¬ round (-1 / 2 ^ 1074) ≤ -1 / 2 ^ 1074 ∧
      ((Int.floor ((-1 / 2 ^ 1074 : ℚ) / size) : Int) : ℚ) * size = -16 := by
  decide!

/-- C10, amended: for every finite `v` (negative values included) whose quotient
`v / size` the float64 division gives exactly, `round v = floor (v / size) * size`, an
integer multiple of `size`, with `round v ≤ v < round v + size`, and
`round (round v) = round v`; and the division is exact for `v = 0` and for every float64
`v` of magnitude at least `2^-1018`. -/
theorem round_anchor :
    (∀ v : ℚ, fdiv v size = v / size →
      round v = ((⌊v / size⌋ : Int) : ℚ) * size ∧ (∃ m : Int, round v = (m : ℚ) * size) ∧
        round v ≤ v ∧ v < round v + size ∧ round (round v) = round v) ∧
    (∀ v : ℚ, toFloat64 v = v → (v = 0 ∨ 1 / 2 ^ 1018 ≤ |v|) → fdiv v size = v / size) := by
  constructor
  · intro v h
    have hr := round_exact v h
    have hpos : (0 : ℚ) < size := by
      unfold size
      norm_num
    have e : v / size * size = v := div_mul_cancel₀ v (ne_of_gt hpos)
    refine ⟨hr, ⟨⌊v / size⌋, hr⟩, ?_, ?_, ?_⟩
    · rw [hr]
      have := mul_le_mul_of_nonneg_right (Int.floor_le (v / size)) (le_of_lt hpos)
      rwa [e] at this
    · rw [hr]
      have := mul_lt_mul_of_pos_right (Int.lt_floor_add_one (v / size)) hpos
      rw [e] at this
      linarith
    · have hf : toFloat64 ((⌊v / size⌋ : Int) : ℚ) = ((⌊v / size⌋ : Int) : ℚ) :=
        toFloat64_floor _ h
      have h2 := round_exact _ (fdiv_anchor ⌊v / size⌋ hf)
      have e2 : ((⌊v / size⌋ : Int) : ℚ) * size / size = ((⌊v / size⌋ : Int) : ℚ) :=
        mul_div_cancel_right₀ _ (ne_of_gt hpos)
      rw [hr, h2, e2, Int.floor_intCast]
  · intro v hv h
    rcases h with rfl | h
    · decide!
    · exact fdiv_size_exact v hv h

theorem round_anchor_witness :
    round (-29 / 4) = ((⌊(-29 / 4 : ℚ) / size⌋ : Int) : ℚ) * size ∧
      (∃ m : Int, round (-29 / 4) = (m : ℚ) * size) ∧
      round (-29 / 4) ≤ -29 / 4 ∧ -29 / 4 < round (-29 / 4) + size ∧
      round (round (-29 / 4)) = round (-29 / 4) :=
  round_anchor.1 (-29 / 4) (round_anchor.2 (-29 / 4) (by decide!) (Or.inr (by decide!)))

/-- C11: the code at the failing input. Three left clicks (two in the same cell) leave the
tiles `(0,0), (0,0), (16,0)` in `cells`; `step` then counts 2 for `(16,0)`, which has one
live neighbouring coordinate, and its result holds 5 coordinates where the result for the
merged input `(0,0), (16,0)` holds none. -/
theorem step_counts_duplicate_tiles :
    liveTiles (click (click (click World.init 5 5) 5 5) 20 3) =
        [⟨0, 0, 0, true⟩, ⟨0, 0, 0, true⟩, ⟨16, 0, 0, true⟩] ∧
      mapGet (crowding [⟨0, 0, 0, true⟩, ⟨0, 0, 0, true⟩, ⟨16, 0, 0, true⟩]) ⟨16, 0⟩ =
        some ⟨16, 0, 2, true⟩ ∧
      liveNeighbours [⟨0, 0, 0, true⟩, ⟨16, 0, 0, true⟩] ⟨16, 0⟩ = 1 ∧
      coords (step [⟨0, 0, 0, true⟩, ⟨0, 0, 0, true⟩, ⟨16, 0, 0, true⟩]) =
        [⟨0, -16⟩, ⟨0, 16⟩, ⟨16, 0⟩, ⟨16, 16⟩, ⟨16, -16⟩] ∧
      coords (step [⟨0, 0, 0, true⟩, ⟨16, 0, 0, true⟩]) = [] := by
  decide!

/-- C12: for every input, also one that holds several tiles at one coordinate, no two
tiles of the result of `step` have the same coordinate. -/
theorem step_result_no_duplicates (S : List Tile) : (coords (step S)).Nodup :=
  nodup_coords_step_all S

/-- C13: when every tile of the live set has `x` and `y` that are integer multiples of
`size`, so has every tile of the result of `step`. -/
theorem step_preserves_alignment (S : List Tile) (hal : ∀ t ∈ S, t.aligned) :
    ∀ t ∈ step S, t.aligned :=
  fun t ht => aligned_of_mem_step S hal t ht

theorem step_preserves_alignment_witness : (⟨16, 16, 0, false⟩ : Tile).aligned :=
  step_preserves_alignment [⟨0, 0, 0, true⟩, ⟨16, 0, 0, true⟩, ⟨32, 0, 0, true⟩]
    (by
      intro t ht
      simp only [List.mem_cons, List.mem_singleton, List.not_mem_nil, or_false] at ht
      rcases ht with rfl | rfl | rfl
      · exact ⟨⟨0, by norm_num [size]⟩, ⟨0, by norm_num [size]⟩⟩
      · exact ⟨⟨1, by norm_num [size]⟩, ⟨0, by norm_num [size]⟩⟩
      · exact ⟨⟨2, by norm_num [size]⟩, ⟨0, by norm_num [size]⟩⟩)
    ⟨16, 16, 0, false⟩ (by decide!)

/-- C14, as stated, fails: two inputs with the same coordinate and different counters
give results with different coordinates. -/
theorem step_depends_on_incoming_counter :
    coords [⟨0, 0, 0, true⟩] = coords [⟨0, 0, 2, true⟩] ∧
      coords (step [⟨0, 0, 0, true⟩]) = [] ∧
      coords (step [⟨0, 0, 2, true⟩]) = [⟨0, 0⟩] := by
  decide!

/-- C14, amended: the counter is reset at the end of `step`, not at its start. Whatever
counters the tiles of an input `S` carry, every tile `step` returns carries counter 0;
the next `step` treats the returned tiles as tiles newly made by `createTile` at the same
coordinates; and the next result is the same for every other input `S'`, with whatever
counters, whose result holds the same coordinates in the same order. -/
theorem step_resets_counters (S : List Tile) :
    (∀ t ∈ step S, t.n = 0) ∧
      step (step S) = step ((step S).map fun t => createTile t.x t.y) ∧
      ∀ S' : List Tile, coords (step S') = coords (step S) →
        step (step S') = step (step S) := by
  refine ⟨n_zero_of_mem_step S, ?_, ?_⟩
  · apply step_eq_of_coords_eq _ _ (n_zero_of_mem_step S)
    · intro t ht
      simp only [List.mem_map] at ht
      obtain ⟨u, -, rfl⟩ := ht
      rfl
    · simp only [coords, List.map_map]
      rfl
  · intro S' h
    exact step_eq_of_coords_eq _ _ (n_zero_of_mem_step S') (n_zero_of_mem_step S) h

theorem step_resets_counters_witness :
    step (step [⟨0, 0, 3, false⟩]) = step (step [⟨0, 0, 2, true⟩]) :=
  (step_resets_counters [⟨0, 0, 2, true⟩]).2.2 [⟨0, 0, 3, false⟩] (by decide!)

/-- C15: `insideWindow` is true of every pair of coordinates, also outside the window,
so `around` sends a tile for each of the 8 directions. -/
theorem insideWindow_always_true :
    (∀ x y : ℚ, insideWindow x y = true) ∧
      ∀ t : Tile, t.around =
        transformations.map fun d =>
          createTile (fsub t.x (fmul d.dx size)) (fsub t.y (fmul d.dy size)) :=
  ⟨insideWindow_eq_true, around_eq_map⟩

/-- C16, as stated, fails: for the live set of the single tile `(2^57 + 32, 0)` the table
has the key `(2^57, 0)`, which is neither in the set nor in the Moore neighbourhood of its
member. -/
theorem crowding_keys_counterexample :
    (⟨2 ^ 57, 0⟩ : key) ∈ keys (crowding [⟨2 ^ 57 + 32, 0, 0, true⟩]) ∧
      (⟨2 ^ 57, 0⟩ : key) ∉ coords [⟨2 ^ 57 + 32, 0, 0, true⟩] ∧
      (⟨2 ^ 57, 0⟩ : key) ∉ moore (⟨2 ^ 57 + 32, 0, 0, true⟩ : Tile).key := by
  decide!

/-- C16, amended: for every live set whose tiles lie in range (coordinates integer
multiples of `size` of magnitude below `2^57`) the keys of the table `step` builds are
exactly the coordinates that are in the live set or in the Moore neighbourhood of a
member; and for every live set the table has at most `9 * |S|` entries and the result of
`step` at most `9 * |S|` tiles. -/
theorem crowding_keys_and_size (S : List Tile) :
    ((∀ t ∈ S, t.inRange) →
        ∀ k, k ∈ keys (crowding S) ↔ (k ∈ coords S ∨ ∃ t ∈ S, k ∈ moore t.key)) ∧
      (crowding S).length ≤ 9 * S.length ∧ (step S).length ≤ 9 * S.length := by
  refine ⟨fun hex k => ?_, length_crowding_le S, length_step_le S⟩
  rw [mem_keys_crowding]
  constructor
  · rintro (h | ⟨t, ht, h⟩)
    · exact Or.inl h
    · exact Or.inr ⟨t, ht, (mem_coords_around_iff_moore t (hex t ht) k).1 h⟩
  · rintro (h | ⟨t, ht, h⟩)
    · exact Or.inl h
    · exact Or.inr ⟨t, ht, (mem_coords_around_iff_moore t (hex t ht) k).2 h⟩

theorem crowding_keys_and_size_witness :
    (⟨16, 16⟩ : key) ∈ keys (crowding [⟨0, 0, 0, true⟩, ⟨16, 0, 0, true⟩, ⟨32, 0, 0, true⟩]) ↔
      ((⟨16, 16⟩ : key) ∈ coords [⟨0, 0, 0, true⟩, ⟨16, 0, 0, true⟩, ⟨32, 0, 0, true⟩] ∨
        ∃ t ∈ ([⟨0, 0, 0, true⟩, ⟨16, 0, 0, true⟩, ⟨32, 0, 0, true⟩] : List Tile),
          (⟨16, 16⟩ : key) ∈ moore t.key) :=
  (crowding_keys_and_size [⟨0, 0, 0, true⟩, ⟨16, 0, 0, true⟩, ⟨32, 0, 0, true⟩]).1
    inRange_blinker ⟨16, 16⟩

/-- C17: the crowding loop comes to an end after exactly one iteration per tile of the
live set, and `step` returns its result: with a budget of at least `|cells|` iterations
the loop yields the result of `step`, with a smaller one it is still running. -/
theorem step_terminates (cells : List Tile) :
    (∀ extra : Nat, stepLoop (cells.length + extra) cells = some (step cells)) ∧
      ∀ fuel : Nat, fuel < cells.length → stepLoop fuel cells = none := by
  constructor
  · intro extra
    simp only [stepLoop, crowdingLoop_of_le, Option.map_some', step, crowding]
  · intro fuel h
    simp only [stepLoop, crowdingLoop_of_lt cells [] fuel h, Option.map_none']

/-- C18: a tile made by `createTile` has counter 0, and for every input every tile of
the result of `step` has counter 0. -/
theorem counters_zero_between_steps :
    (∀ x y : ℚ, (createTile x y).n = 0) ∧
      ∀ (S : List Tile) (t : Tile), t ∈ step S → t.n = 0 :=
  ⟨fun _ _ => rfl, n_zero_of_mem_step⟩

/-- C19, as stated, fails: shifting the row `(0,0), (16,0), (32,0)` by
`((2^53 - 2) * size, 0)` puts it at `x = 2^57 - 32 .. 2^57`; `step` of the shifted row
holds `(2^57, 0)`, which the shifted result of `step` of the row does not. -/
theorem step_translation_counterexample :
    (⟨2 ^ 57, 0⟩ : key) ∈ coords (step
        ([⟨0, 0, 0, true⟩, ⟨16, 0, 0, true⟩, ⟨32, 0, 0, true⟩].map (shiftTile (2 ^ 53 - 2) 0))) ∧
      (⟨2 ^ 57, 0⟩ : key) ∉ (coords (step
        [⟨0, 0, 0, true⟩, ⟨16, 0, 0, true⟩, ⟨32, 0, 0, true⟩])).map (shiftKey (2 ^ 53 - 2) 0) := by
  decide!

/-- C19, amended: `step` commutes with translation by `(a*size, b*size)` as long as the
live set and the shifted live set lie in range (coordinates integer multiples of `size`
of magnitude below `2^57`): for tiles carrying counter 0, the coordinates of `step` of
the shifted set are exactly the shifted coordinates of `step` of the set, inside the
window or not. -/
theorem step_commutes_with_translation (S : List Tile) (hn : ∀ t ∈ S, t.n = 0)
    (hex : ∀ t ∈ S, t.inRange) (a b : Int) (hex' : ∀ t ∈ S.map (shiftTile a b), t.inRange) :
    ∀ c, c ∈ coords (step (S.map (shiftTile a b))) ↔
      c ∈ (coords (step S)).map (shiftKey a b) :=
  fun c => mem_coords_step_shift a b S hn hex hex' c

theorem step_commutes_with_translation_witness :
    (⟨-1584, 1136⟩ : key) ∈ coords (step
        ([⟨0, 0, 0, true⟩, ⟨16, 0, 0, true⟩, ⟨32, 0, 0, true⟩].map (shiftTile (-100) 70))) ↔
      (⟨-1584, 1136⟩ : key) ∈ (coords (step
        [⟨0, 0, 0, true⟩, ⟨16, 0, 0, true⟩, ⟨32, 0, 0, true⟩])).map (shiftKey (-100) 70) :=
  step_commutes_with_translation _ (by decide!) inRange_blinker (-100) 70
    (by
      intro t ht
      simp only [List.map, List.mem_cons, List.mem_singleton, List.not_mem_nil, or_false,
        shiftTile] at ht
      rcases ht with rfl | rfl | rfl
      · exact inRange_of_small _ _ _ _ (-100) 70 (by norm_num) (by norm_num)
          (by norm_num [size]) (by norm_num [size])
      · exact inRange_of_small _ _ _ _ (-99) 70 (by norm_num) (by norm_num)
          (by norm_num [size]) (by norm_num [size])
      · exact inRange_of_small _ _ _ _ (-98) 70 (by norm_num) (by norm_num)
          (by norm_num [size]) (by norm_num [size]))
    ⟨-1584, 1136⟩

end GameOfLife
